import Mathlib

/-!
A verification development for `microgram`'s chunking module
(`src/microgram/chunking.py`).

Modelling conventions, fixed throughout:

* Python strings are modelled as `List Char`; `len` is `List.length`,
  slicing `s[:i]`/`s[i:]` is `List.take`/`List.drop`.
* The parsed markup forest (`list[str | Tag]` in the source, with
  `Tag = {tag, content, attrs}`) is the nested inductive `Tok`.
* Generators together with the exceptions they can raise while being
  consumed are modelled as `Except ChunkErr (List (List Char))`: the chunk
  list a full consumption would produce, or the exception it would raise.
* The Lark LALR parser (grammar `telegram_html_grammar` with transformer
  `TelegramHtmlParser`, contextual lexer) is modelled as a recursive
  descent parser over the same grammar: `STRING` is a maximal run of
  characters other than `<` and `>`, `TAG_NAME` is the longest matching
  name of the closed tag set, `WS` is a maximal nonempty whitespace run,
  `VARIABLE` is a maximal nonempty run over `/[a-zA-Z0-19_]+/` (note the
  source's character class contains the digits 0, 1 and 9 only),
  quoted strings are `/"[^"]*"/` and `/'[^']*'/`.  The transformer's
  `assert open_tag == close_tag` is a parse failure when the names differ.
* Recursions that are not structural in the Python source carry explicit
  fuel so that every definition evaluates by kernel reduction; `none`
  means "out of fuel" and is proved unreachable for the fuel the wrappers
  supply.
-/

namespace Microgram

/-- A node of the parsed markup forest: either a text run (`str` in the
source) or an element (`Tag` dict) with its tag name, its attribute
strings (each the literal `key="value"` text) and its children. -/
inductive Tok where
  | text : List Char → Tok
  | tag : (name : List Char) → (attrs : List (List Char)) → (content : List Tok) → Tok

/-- `token_open_len` from the source: `1 + len(tag) + sum(len(a)+1) + 1`. -/
def token_open_len (name : List Char) (attrs : List (List Char)) : Nat :=
  1 + name.length + (attrs.map (fun a => a.length + 1)).sum + 1

/-- `token_close_len` from the source: `2 + len(tag) + 1`. -/
def token_close_len (name : List Char) : Nat :=
  2 + name.length + 1

mutual
/-- Measure of a single token (the two branches of `token_len`'s loop body). -/
def token_len1 : Tok → Nat
  | .text s => s.length
  | .tag n a c => token_open_len n a + token_len c + token_close_len n
/-- `token_len` from the source: measure of a token list. -/
def token_len : List Tok → Nat
  | [] => 0
  | t :: ts => token_len1 t + token_len ts
end

/-- `token_open_str` from the source: `<tag attr1 attr2>` with a single
space before every attribute. -/
def token_open_str (name : List Char) (attrs : List (List Char)) : List Char :=
  '<' :: (name ++ (attrs.map (fun a => ' ' :: a)).flatten ++ ['>'])

/-- `token_close_str` from the source: `</tag>`. -/
def token_close_str (name : List Char) : List Char :=
  '<' :: '/' :: (name ++ ['>'])

mutual
/-- `token_str` on a single token. -/
def token_str1 : Tok → List Char
  | .text s => s
  | .tag n a c => token_open_str n a ++ token_str c ++ token_close_str n
/-- `token_str` from the source, on a token list (the renderer). -/
def token_str : List Tok → List Char
  | [] => []
  | t :: ts => token_str1 t ++ token_str ts
end

/-! ## The markup parser (`telegram_html_grammar` + `TelegramHtmlParser`) -/
/-- The closed tag set of the grammar's `TAG_NAME` terminal, in source order. -/
def TAG_NAMES : List (List Char) :=
  ["b".data, "strong".data, "i".data, "em".data, "u".data, "ins".data, "s".data,
   "strike".data, "del".data, "span".data, "tg-spoiler".data, "a".data, "code".data, "pre".data]

/-- Whitespace characters of the `WS` terminal (`/\s+/`, ASCII part). -/
def isWSChar (c : Char) : Bool :=
  c = ' ' || c = '\t' || c = '\n' || c = '\r' || c = '\x0b' || c = '\x0c'

/-- Characters of the `VARIABLE` terminal `/[a-zA-Z0-19_]+/`: the class
`0-1` together with the literal `9` (faithful to the source's regex). -/
def isVarChar (c : Char) : Bool :=
  ('a' ≤ c && c ≤ 'z') || ('A' ≤ c && c ≤ 'Z') || c = '0' || c = '1' || c = '9' || c = '_'

/-- Characters allowed in a `STRING` text run: anything but `<` and `>`. -/
def isTextChar (c : Char) : Bool :=
  !(c = '<' || c = '>')

/-- Longest-match lexing of the `TAG_NAME` terminal: the longest element
of `TAG_NAMES` that is a prefix of the input. -/
def matchName (cs : List Char) : Option (List Char) :=
  TAG_NAMES.foldl
    (fun acc n =>
      if n.isPrefixOf cs && acc.elim true (fun m => decide (m.length < n.length)) then some n
      else acc)
    none

/-- Parse `attributes: (WS attribute)+` "as far as it reaches": consume,
while the input starts with whitespace, one whitespace run and one
`attribute` (`VARIABLE "=" quoted_string`), producing the transformer's
`f"{k}={v}"` string (the quoted value kept verbatim with its quotes).
Stops before the first non-whitespace character; fails if a whitespace
run is not followed by a well-formed attribute.  One attribute after the
whitespace run is `VARIABLE "=" quoted_string`; `parseAttr1` returns the
transformer's `f"{k}={v}"` string and the remainder. -/
def parseAttr1 (rest1 : List Char) : Option (List Char × List Char) :=
  if (rest1.takeWhile isVarChar).isEmpty then none
  else
    match rest1.drop (rest1.takeWhile isVarChar).length with
    | e :: q :: vrest =>
      if e = '=' && (q = '"' || q = '\'') then
        match vrest.drop (vrest.takeWhile (fun d => !(d = q))).length with
        | _ :: rest2 =>
          some (rest1.takeWhile isVarChar ++ '=' :: q :: (vrest.takeWhile (fun d => !(d = q)) ++ [q]),
                rest2)
        | [] => none
      else none
    | _ => none

def parseAttrsF : Nat → List Char → Option (List (List Char) × List Char)
  | 0, _ => none
  | fuel+1, cs =>
    match cs with
    | [] => some ([], [])
    | c :: _ =>
      if isWSChar c then
        match parseAttr1 (cs.dropWhile isWSChar) with
        | none => none
        | some (attr, rest2) =>
          match parseAttrsF fuel rest2 with
          | none => none
          | some (attrs, restF) => some (attr :: attrs, restF)
      else some ([], cs)

/-- Parse `content: (tag | plain_text)*`.  Returns the parsed forest and
the unconsumed remainder, which begins with `</` (the enclosing tag's
close) or is empty.  A stray `>`, an unknown tag name, malformed
attributes, a missing close tag or a close tag whose name differs from
the open tag's (the transformer's assertion) are parse failures. -/
def parseContentF : Nat → List Char → Option (List Tok × List Char)
  | 0, _ => none
  | fuel+1, cs =>
    match cs with
    | [] => some ([], [])
    | c :: rest =>
      if c = '<' then
        if rest.head? = some '/' then some ([], cs)
        else
          match matchName rest with
          | none => none
          | some n =>
            match parseAttrsF ((rest.drop n.length).length + 1) (rest.drop n.length) with
            | none => none
            | some (attrs, rest2) =>
              match rest2 with
              | g :: rest3 =>
                if g = '>' then
                  match parseContentF fuel rest3 with
                  | none => none
                  | some (inner, rest4) =>
                    match rest4 with
                    | c4 :: c5 :: rest5 =>
                      if c4 = '<' && c5 = '/' then
                        match matchName rest5 with
                        | none => none
                        | some n2 =>
                          if n2 = n then
                            match rest5.drop n2.length with
                            | g2 :: rest6 =>
                              if g2 = '>' then
                                match parseContentF fuel rest6 with
                                | none => none
                                | some (ts, restF) => some (Tok.tag n attrs inner :: ts, restF)
                              else none
                            | _ => none
                          else none
                      else none
                    | _ => none
                else none
              | _ => none
      else if c = '>' then none
      else
        match parseContentF fuel (cs.dropWhile isTextChar) with
        | none => none
        | some (ts, restF) => some (Tok.text (cs.takeWhile isTextChar) :: ts, restF)

/-- `html_parser.parse`: parse a whole input as `content`; anything left
over (an unmatched `</...>` at top level) is a parse error. -/
def parse (s : List Char) : Option (List Tok) :=
  match parseContentF (s.length + 1) s with
  | some (ts, []) => some ts
  | _ => none

/-! ## Chunking -/
/-- The exceptions the chunking module can raise. -/
inductive ChunkErr where
  /-- `Exception('Invalid page: too long line in message ...')` in `chunk_by_newlines`. -/
  | tooLongLine
  /-- `RuntimeError('Chunking ... is not possible')` in `chunk_html`. -/
  | notPossible
  /-- `NotImplementedError` in `chunk`. -/
  | notImplemented
  /-- `RuntimeError('Unknown parse_mode')` in `chunk`. -/
  | unknownMode
  /-- a Lark parse error raised by `html_parser.parse` in `chunk`. -/
  | parseFailure
deriving DecidableEq

/-- The inner character loop of `chunk_html`'s scan (`for ci, c in
enumerate(t)`): update the three best cut points over one text token.
`ln` is the running length at this token's start. -/
def scanStr (maxLen ti ln : Nat) : Nat → List Char →
    Option (Nat × Nat) → Option (Nat × Nat) → Option (Nat × Nat) →
    (Option (Nat × Nat) × Option (Nat × Nat) × Option (Nat × Nat))
  | _, [], bn, bs, ba => (bn, bs, ba)
  | ci, c :: rest, bn, bs, ba =>
    scanStr maxLen ti ln (ci + 1) rest
      (if c = '\n' ∧ ln + ci + 1 ≤ maxLen then some (ti, ci) else bn)
      (if c = ' ' ∧ ln + ci + 1 ≤ maxLen then some (ti, ci) else bs)
      (if ln + ci + 1 ≤ maxLen then some (ti, ci) else ba)

/-- The token loop of `chunk_html`'s scan (`for ti, t in enumerate(tokens)`
with its `if ln > max_length: break`): returns the best newline, space
and anywhere cut points. -/
def scanToks (maxLen : Nat) : Nat → Nat → List Tok →
    (Option (Nat × Nat) × Option (Nat × Nat) × Option (Nat × Nat)) →
    (Option (Nat × Nat) × Option (Nat × Nat) × Option (Nat × Nat))
  | _, _, [], b => b
  | ti, ln, t :: ts, (bn, bs, ba) =>
    if maxLen < ln then (bn, bs, ba)
    else
      match t with
      | .tag n a c => scanToks maxLen (ti + 1) (ln + token_len1 (.tag n a c)) ts (bn, bs, ba)
      | .text s => scanToks maxLen (ti + 1) (ln + s.length) ts (scanStr maxLen ti ln 0 s bn bs ba)

/-- The `inside_tags` stack: the name and attributes of each ancestor
element, outermost first (the source pushes at the end of a tuple). -/
abbrev Inside := List (List Char × List (List Char))

/-- `prefix = ''.join(token_open_str(t) for t in inside_tags)`. -/
def openAll (ins : Inside) : List Char :=
  (ins.map (fun p => token_open_str p.1 p.2)).flatten

/-- `postfix = ''.join(token_close_str(t) for t in inside_tags)` — note:
the same, outermost-first order as `openAll`, not reversed. -/
def closeAll (ins : Inside) : List Char :=
  (ins.map (fun p => token_close_str p.1)).flatten

/-- The choice `best_newline_dbl_idx or best_space_dbl_idx or
best_anywhere_dbl_idx` over the scan's results. -/
def bestCutImpl (maxLen outer : Nat) (toks : List Tok) : Option (Nat × Nat) :=
  (((scanToks maxLen 0 outer toks (none, none, none)).1).orElse
    (fun _ => (scanToks maxLen 0 outer toks (none, none, none)).2.1)).orElse
    (fun _ => (scanToks maxLen 0 outer toks (none, none, none)).2.2)

/-- The left part of a cut at `(ti, ci)`: the tokens before `ti` plus the
cut text token truncated through `ci` inclusive. -/
def leftOfCut (toks : List Tok) (s : List Char) (ti ci : Nat) : List Tok :=
  toks.take ti ++ [Tok.text (s.take (ci + 1))]

/-- The right remainder of a cut at `(ti, ci)`: the rest of the cut text
token (when nonempty) followed by the tokens after `ti`. -/
def rightOfCut (toks : List Tok) (s : List Char) (ti ci : Nat) : List Tok :=
  (if (s.drop (ci + 1)).isEmpty then [] else [Tok.text (s.drop (ci + 1))]) ++ toks.drop (ti + 1)

/-- Yield one chunk, then everything the recursion on the remainder
yields (or the exception consuming it raises). -/
def consRes (c : List Char) : Option (Except ChunkErr (List (List Char))) →
    Option (Except ChunkErr (List (List Char)))
  | none => none
  | some (.error e) => some (.error e)
  | some (.ok cs) => some (.ok (c :: cs))

/-- Yield everything the first recursion yields, then everything the
second yields (`yield from` twice); an exception ends consumption. -/
def seqRes : Option (Except ChunkErr (List (List Char))) →
    Option (Except ChunkErr (List (List Char))) →
    Option (Except ChunkErr (List (List Char)))
  | none, _ => none
  | some (.error e), _ => some (.error e)
  | some (.ok _), none => none
  | some (.ok _), some (.error e) => some (.error e)
  | some (.ok l), some (.ok rr) => some (.ok (l ++ rr))

/-- What `chunk_html` does after the scan, as a function of the chosen
cut point; `rec` is the recursive call (one fuel step down).  A cut
inside a text token splits there and recurses on the remainder with the
same ancestor stack; no cut and a text head is the `RuntimeError`; no
cut and an element head descends into the element's children with the
element pushed onto the ancestor stack, then continues with the
remaining siblings and the original stack. -/
def chunkCutStep (tokens : List Tok) (inside : Inside)
    (rec : List Tok → Inside → Option (Except ChunkErr (List (List Char)))) :
    Option (Nat × Nat) → Option (Except ChunkErr (List (List Char)))
  | some (ti, ci) =>
    match tokens.get? ti with
    | some (.text s) =>
      consRes (openAll inside ++ token_str (leftOfCut tokens s ti ci) ++ closeAll inside)
        (rec (rightOfCut tokens s ti ci) inside)
    | _ => some (.error .notPossible)
  | none =>
    match tokens with
    | Tok.tag n a c :: restToks =>
      seqRes (rec c (inside ++ [(n, a)])) (rec restToks inside)
    | _ => some (.error .notPossible)

/-- `chunk_html` from the source, with fuel.  `none` is "out of fuel" and
never occurs for fuel above `token_len tokens` (proved below). -/
def chunkHtmlF : Nat → Nat → List Tok → Inside → Option (Except ChunkErr (List (List Char)))
  | 0, _, _, _ => none
  | fuel+1, maxLen, tokens, inside =>
    match tokens with
    | [] => some (.ok [])
    | t0 :: restToks =>
      if token_len (t0 :: restToks) + ((openAll inside).length + (closeAll inside).length) ≤ maxLen then
        some (.ok [openAll inside ++ token_str (t0 :: restToks) ++ closeAll inside])
      else
        chunkCutStep (t0 :: restToks) inside (chunkHtmlF fuel maxLen)
          (bestCutImpl maxLen ((openAll inside).length + (closeAll inside).length) (t0 :: restToks))

/-- `chunk_html` with the fuel its recursion needs; the default is
unreachable (shown by `chunkHtmlF_isSome`). -/
def chunk_html (maxLen : Nat) (tokens : List Tok) (inside : Inside) :
    Except ChunkErr (List (List Char)) :=
  (chunkHtmlF (token_len tokens + 1) maxLen tokens inside).getD (.error .notPossible)

/-- Python `text.split('\n')`: always at least one (possibly empty) part. -/
def splitNl : List Char → List (List Char)
  | [] => [[]]
  | c :: rest =>
    match splitNl rest with
    | [] => [[]]
    | p :: ps => if c = '\n' then [] :: p :: ps else (c :: p) :: ps

/-- The paragraph loop of `chunk_by_newlines`, carrying the accumulator.
`(acc + '\n' + p).lstrip()` is modelled with `List.dropWhile isWSChar`
(Python's `str.lstrip()` on the ASCII whitespace the module handles). -/
def chunkGo (maxLen : Nat) : List Char → List (List Char) → Except ChunkErr (List (List Char))
  | acc, [] => .ok [acc]
  | acc, p :: ps =>
    if maxLen < p.length then .error .tooLongLine
    else if maxLen < ((acc ++ '\n' :: p).dropWhile isWSChar).length then
      (chunkGo maxLen p ps).map (fun cs => acc :: cs)
    else chunkGo maxLen ((acc ++ '\n' :: p).dropWhile isWSChar) ps

/-- `chunk_by_newlines` from the source. -/
def chunk_by_newlines (text : List Char) (maxLen : Nat) : Except ChunkErr (List (List Char)) :=
  chunkGo maxLen [] (splitNl text)

/-- Python `str.lower()` on the ASCII letters (all mode strings are
ASCII): `Char.toLower` maps `A`-`Z` to `a`-`z` and fixes the rest. -/
def lowerStr (s : List Char) : List Char := s.map Char.toLower

/-- `chunk` from the source: the segmentation facade.  `parseMode` models
`kwargs.get('parse_mode', '')`. -/
def chunk (maxLen : Nat) (text : List Char) (parseMode : List Char) :
    Except ChunkErr (List (List Char)) :=
  if text.length ≤ maxLen then .ok [text]
  else if lowerStr parseMode = [] then chunk_by_newlines text maxLen
  else if lowerStr parseMode = "html".data then
    match parse text with
    | none => .error .parseFailure
    | some toks => chunk_html maxLen toks []
  else if lowerStr parseMode = "MarkdownV2".data ∨ lowerStr parseMode = "Markdown".data then
    .error .notImplemented
  else .error .unknownMode

/-! ## Declarative characterization of the scan's cut points -/
/-- A candidate cut position of the scan: character `ch` at index `ci` of
the text token at sibling index `ti`, with `ln` the running length at
that token's start. -/
structure Pos where
  ti : Nat
  ci : Nat
  ln : Nat
  ch : Char

/-- All positions of one text token, with their character indices. -/
def posOfStr (ti ln : Nat) : Nat → List Char → List Pos
  | _, [] => []
  | ci, c :: rest => ⟨ti, ci, ln, c⟩ :: posOfStr ti ln (ci + 1) rest

/-- All candidate positions of a sibling sequence, in scan order. -/
def posList : Nat → Nat → List Tok → List Pos
  | _, _, [] => []
  | ti, ln, .text s :: ts => posOfStr ti ln 0 s ++ posList (ti + 1) (ln + s.length) ts
  | ti, ln, .tag n a c :: ts => posList (ti + 1) (ln + token_len1 (.tag n a c)) ts

/-- A position is a valid cut when the left part ending at it (inclusive)
still fits the budget: `ln + ci + 1 <= max_length`. -/
def pValid (maxLen : Nat) (p : Pos) : Bool := p.ln + p.ci + 1 ≤ maxLen

/-- The last element of a candidate list, projected to `(ti, ci)`, with a
fallback: the "best-so-far, overwritten by later valid positions" value. -/
def updLast (b : Option (Nat × Nat)) (l : List Pos) : Option (Nat × Nat) :=
  match l.getLast? with
  | some p => some (p.ti, p.ci)
  | none => b

/-- The furthest valid newline cut of a sibling sequence. -/
def specNl (maxLen outer : Nat) (toks : List Tok) : Option (Nat × Nat) :=
  updLast none ((posList 0 outer toks).filter (fun p => p.ch = '\n' && pValid maxLen p))

/-- The furthest valid space cut of a sibling sequence. -/
def specSp (maxLen outer : Nat) (toks : List Tok) : Option (Nat × Nat) :=
  updLast none ((posList 0 outer toks).filter (fun p => p.ch = ' ' && pValid maxLen p))

/-- The furthest valid cut of a sibling sequence, any character. -/
def specAny (maxLen outer : Nat) (toks : List Tok) : Option (Nat × Nat) :=
  updLast none ((posList 0 outer toks).filter (fun p => pValid maxLen p))

/-- The cut point the specification describes: the furthest valid newline
position if one exists, else the furthest valid space position, else the
furthest valid position of any character. -/
def specBestCut (maxLen outer : Nat) (toks : List Tok) : Option (Nat × Nat) :=
  ((specNl maxLen outer toks).orElse (fun _ => specSp maxLen outer toks)).orElse
    (fun _ => specAny maxLen outer toks)

/-! ## Markup stripping and well-formedness -/
/-- Scanner state for stripping markup from a rendered string: outside
any tag, inside a tag, inside a double-quoted or single-quoted attribute
value. -/
inductive StripMode where
  | out
  | tag
  | dq
  | sq

/-- Strip markup from a string: keep characters outside tags, skip
everything from `<` to the matching `>`, quote-aware so that `>` inside
a quoted attribute value does not end the tag. -/
def stripRun : List Char → StripMode → List Char
  | [], _ => []
  | c :: r, .out => if c = '<' then stripRun r .tag else c :: stripRun r .out
  | c :: r, .tag =>
    if c = '>' then stripRun r .out
    else if c = '"' then stripRun r .dq
    else if c = '\'' then stripRun r .sq
    else stripRun r .tag
  | c :: r, .dq => if c = '"' then stripRun r .tag else stripRun r .dq
  | c :: r, .sq => if c = '\'' then stripRun r .tag else stripRun r .sq

/-- The markup-stripped visible text of a string. -/
def stripMarkup (s : List Char) : List Char := stripRun s .out

mutual
/-- The visible text of one token: text itself, elements their children's. -/
def stripToks1 : Tok → List Char
  | .text s => s
  | .tag _ _ c => stripToks c
/-- The visible text of a token forest: the text nodes, concatenated in order. -/
def stripToks : List Tok → List Char
  | [] => []
  | t :: ts => stripToks1 t ++ stripToks ts
end

/-- A well-formed attribute string, as the parser produces them:
`key="value"` or `key='value'` verbatim — a nonempty `VARIABLE` key, `=`,
and a quoted value free of its own quote character. -/
def wfAttrB (a : List Char) : Bool :=
  !(a.takeWhile isVarChar).isEmpty &&
  (match a.drop (a.takeWhile isVarChar).length with
   | e :: q :: rest =>
     (e = '=') && ((q = '"') || (q = '\'')) && !rest.isEmpty
       && decide (rest.getLast? = some q)
       && rest.dropLast.all (fun d => !(d = q))
   | _ => false)

mutual
/-- Structural well-formedness of a token, as the parser guarantees it:
text runs are nonempty and free of `<`/`>`; elements carry a recognized
tag name, well-formed attribute strings and well-formed children. -/
def wfTokB : Tok → Bool
  | .text s => !s.isEmpty && s.all isTextChar
  | .tag n a c => decide (n ∈ TAG_NAMES) && a.all wfAttrB && wfListB c
/-- Structural well-formedness of every token of a forest. -/
def wfListB : List Tok → Bool
  | [] => true
  | t :: ts => wfTokB t && wfListB ts
end

/-- Does the token start a text run? -/
def isTextTok : Tok → Bool
  | .text _ => true
  | .tag _ _ _ => false

/-- Does the forest start with a text run? -/
def headIsText : List Tok → Bool
  | .text _ :: _ => true
  | _ => false

mutual
/-- Text runs are maximal: inside a token, no two adjacent text nodes. -/
def sepTok : Tok → Bool
  | .text _ => true
  | .tag _ _ c => sepList c
/-- Text runs are maximal in a forest, recursively. -/
def sepList : List Tok → Bool
  | [] => true
  | t :: ts => sepTok t && !(isTextTok t && headIsText ts) && sepList ts
end

/-- Well-formedness of an ancestor stack entry: a recognized tag name
with well-formed attribute strings. -/
def wfInsB (ins : Inside) : Bool :=
  ins.all (fun p => decide (p.1 ∈ TAG_NAMES) && p.2.all wfAttrB)

mutual
/-- Is `ext` a descent chain into this token: the token is an element
whose `(name, attrs)` heads the chain and whose children carry its tail? -/
def chainTok : Tok → Inside → Bool
  | .text _, _ => false
  | .tag n a c, ext =>
    match ext with
    | [] => false
    | (m, b) :: ext2 => decide (n = m) && decide (a = b) && chainList c ext2
/-- Is `ext` a descent chain into this forest: empty, or headed by the
`(name, attrs)` of some element of the forest whose children carry the
rest?  This is precisely the ancestor path `chunk_html` pushes onto
`inside_tags` while descending. -/
def chainList : List Tok → Inside → Bool
  | _, [] => true
  | [], _ :: _ => false
  | t :: ts, ext => chainTok t ext || chainList ts ext
end

/-! ## Validation: the embedding reproduces every `assert` of the source module -/
theorem check_assert_1 : parse "".data = some [] := rfl

theorem check_assert_2 : parse "Welcome".data = some [Tok.text "Welcome".data] := rfl

theorem check_assert_3 : parse " spaces must live ".data = some [Tok.text " spaces must live ".data] := rfl

theorem check_assert_4 : parse "<b>bold</b>".data = some [Tok.tag "b".data [] [Tok.text "bold".data]] := rfl

theorem check_assert_5 : parse "<span  class=\"tg-spoiler\" id=\"123\">spoiler</span>".data
    = some [Tok.tag "span".data ["class=\"tg-spoiler\"".data, "id=\"123\"".data] [Tok.text "spoiler".data]] := rfl

theorem check_assert_6 : parse "<b>Say:</b> Hi <a href=\"https://asdasd\" visible=\"true\">there <i>!</i></a>".data
    = some [Tok.tag "b".data [] [Tok.text "Say:".data],
            Tok.text " Hi ".data,
            Tok.tag "a".data ["href=\"https://asdasd\"".data, "visible=\"true\"".data]
              [Tok.text "there ".data, Tok.tag "i".data [] [Tok.text "!".data]]] := rfl

theorem check_assert_7 : (parse "<a href=\"tg://user?id=123456789\">attribe test</a>".data).map token_len = some ("<a href=\"tg://user?id=123456789\">attribe test</a>".data.length) := rfl

theorem check_assert_8 : (parse "123".data).map token_len = some 3 := rfl

theorem check_assert_9 : (parse "<b>bold</b> there".data).map token_str = some "<b>bold</b> there".data := rfl

theorem check_assert_10 : (parse "<a href=\"tg://user?id=123456789\">attribe test</a>".data).map token_str
    = some "<a href=\"tg://user?id=123456789\">attribe test</a>".data := rfl

theorem check_assert_11 : (parse "<b>1 <i> nested </i> 3 </b>".data).map token_len = some ("<b>1 <i> nested </i> 3 </b>".data.length) := rfl

theorem check_assert_12 : (parse "<b>1 <i> nested </i> 3 </b>".data).map token_str = some "<b>1 <i> nested </i> 3 </b>".data := rfl

theorem check_assert_13 : chunk 1000 "line1\n\nline2".data [] = .ok ["line1\n\nline2".data] := rfl

theorem check_assert_14 : chunk 5 "line1\n\nline2".data [] = .ok ["line1".data, "line2".data] := rfl

theorem check_assert_15 : chunk 5 "some\ntext\n!".data "HTML".data = .ok ["some\n".data, "text\n".data, "!".data] := rfl

theorem check_assert_16 : chunk 5 "some\ntext !!!".data "HTML".data = .ok ["some\n".data, "text ".data, "!!!".data] := rfl

theorem check_assert_17 : chunk 6 "s o m\nt e x t !!!".data "HTML".data = .ok ["s o m\n".data, "t e x ".data, "t !!!".data] := rfl

theorem check_assert_18 : chunk 5 "Verylongtextwithoutnewlinesandspaces".data "HTML".data
    = .ok ["Veryl".data, "ongte".data, "xtwit".data, "houtn".data, "ewlin".data, "esand".data, "space".data, "s".data] := rfl

theorem check_assert_19 : chunk 10 "hi<b>there</b>world".data "HTML".data
    = .ok ["hi".data, "<b>the</b>".data, "<b>re</b>".data, "world".data] := rfl

theorem check_assert_20 : chunk 80 "<pre><code class=\"language-python\">import sys\nprint(sys.executable)\nprint(sys.argv)</code></pre>".data "HTML".data
    = .ok ["<pre><code class=\"language-python\">import sys\n</pre></code>".data,
           "<pre><code class=\"language-python\">print(sys.executable)\n</pre></code>".data,
           "<pre><code class=\"language-python\">print(sys.argv)</pre></code>".data] := rfl

/-! ## C5: the measurer equals the length of the rendered string -/
theorem attrs_flatten_length (a : List (List Char)) :
    ((a.map (fun x => ' ' :: x)).flatten).length = (a.map (fun x => x.length + 1)).sum := by
  induction a with
  | nil => simp
  | cons x xs ih =>
    simp only [List.map_cons, List.flatten_cons, List.length_append, List.length_cons,
      List.sum_cons, ih]

theorem token_open_str_length (n : List Char) (a : List (List Char)) :
    (token_open_str n a).length = token_open_len n a := by
  simp only [token_open_str, token_open_len, List.length_cons, List.length_append,
    attrs_flatten_length, List.length_singleton, List.length_nil]
  omega

theorem token_close_str_length (n : List Char) :
    (token_close_str n).length = token_close_len n := by
  simp [token_close_str, token_close_len]
  omega

/-- C5. For every document (token forest) `ts`, the measurer `token_len`
equals the length of the rendered string `token_str`, the element cost
being `token_open_len` + measure of the children + `token_close_len`. -/
theorem C5_token_len_eq_length_token_str : ∀ ts : List Tok, token_len ts = (token_str ts).length := by
  have H : ∀ ts : List Tok, token_len ts = (token_str ts).length :=
    token_str.induct (fun t => token_len1 t = (token_str1 t).length)
      (fun ts => token_len ts = (token_str ts).length)
      (fun s => by simp [token_len1, token_str1])
      (fun n a c ih => by
        simp [token_len1, token_str1, token_open_str_length, token_close_str_length, ih]
        omega)
      (by simp [token_len, token_str])
      (fun t ts ih1 ih2 => by simp [token_len, token_str, ih1, ih2])
  exact H

/-! ## C8: short input returns `[text]` for any mode -/
/-- C8. When the text already fits the budget, the facade returns exactly
`[text]`, whatever the `parse_mode` value is (the mode is never
inspected). -/
theorem C8_short_input_identity (maxLen : Nat) (text parseMode : List Char)
    (h : text.length ≤ maxLen) : chunk maxLen text parseMode = .ok [text] := by
  simp [chunk, h]

/-- Witness for C8 at a concrete input. -/
theorem C8_short_input_identity_witness :
    "abc".data.length ≤ 5 ∧ chunk 5 "abc".data "MarkdownV2".data = .ok ["abc".data] :=
  ⟨by decide, C8_short_input_identity 5 "abc".data "MarkdownV2".data (by decide)⟩

/-! ## Unfolding and shape lemmas for the chunkers; the mode dispatch (C10) -/
theorem chunkHtmlF_nil (fuel maxLen : Nat) (inside : Inside) :
    chunkHtmlF (fuel+1) maxLen [] inside = some (.ok []) := rfl

theorem chunkHtmlF_cons (fuel maxLen : Nat) (t0 : Tok) (restToks : List Tok) (inside : Inside) :
    chunkHtmlF (fuel+1) maxLen (t0 :: restToks) inside =
      if token_len (t0 :: restToks) + ((openAll inside).length + (closeAll inside).length) ≤ maxLen then
        some (.ok [openAll inside ++ token_str (t0 :: restToks) ++ closeAll inside])
      else
        chunkCutStep (t0 :: restToks) inside (chunkHtmlF fuel maxLen)
          (bestCutImpl maxLen ((openAll inside).length + (closeAll inside).length) (t0 :: restToks)) := rfl

theorem chunkGo_error_shape : ∀ (ps : List (List Char)) (maxLen : Nat) (acc : List Char)
    (e : ChunkErr), chunkGo maxLen acc ps = .error e → e = .tooLongLine := by
  intro ps
  induction ps with
  | nil => intro maxLen acc e h; simp [chunkGo] at h
  | cons p ps ih =>
    intro maxLen acc e h
    unfold chunkGo at h
    split at h
    · simp at h; exact h.symm
    · split at h
      · cases h2 : chunkGo maxLen p ps with
        | error e2 => rw [h2] at h; simp [Except.map] at h; exact h ▸ ih maxLen p e2 h2
        | ok cs => rw [h2] at h; simp [Except.map] at h
      · exact ih _ _ _ h

theorem consRes_error {c : List Char} {r : Option (Except ChunkErr (List (List Char)))}
    {e : ChunkErr} (h : consRes c r = some (.error e)) : r = some (.error e) := by
  cases r with
  | none => simp [consRes] at h
  | some x =>
    cases x with
    | error e2 => simp [consRes] at h; rw [h]
    | ok cs => simp [consRes] at h

theorem seqRes_error {r1 r2 : Option (Except ChunkErr (List (List Char)))}
    {e : ChunkErr} (h : seqRes r1 r2 = some (.error e)) :
    r1 = some (.error e) ∨ r2 = some (.error e) := by
  cases r1 with
  | none => simp [seqRes] at h
  | some x =>
    cases x with
    | error e2 => simp [seqRes] at h; left; rw [h]
    | ok l =>
      cases r2 with
      | none => simp [seqRes] at h
      | some y =>
        cases y with
        | error e2 => simp [seqRes] at h; right; rw [h]
        | ok rr => simp [seqRes] at h

theorem chunkHtmlF_error_shape : ∀ (fuel maxLen : Nat) (toks : List Tok) (ins : Inside)
    (e : ChunkErr), chunkHtmlF fuel maxLen toks ins = some (.error e) → e = .notPossible := by
  intro fuel
  induction fuel with
  | zero => intro m toks ins e h; simp [chunkHtmlF] at h
  | succ f ih =>
    intro m toks ins e h
    cases toks with
    | nil => rw [chunkHtmlF_nil] at h; simp at h
    | cons t0 rest =>
      rw [chunkHtmlF_cons] at h
      split at h
      · simp at h
      · unfold chunkCutStep at h
        split at h
        · split at h
          · exact ih _ _ _ _ (consRes_error h)
          · simp at h; exact h.symm
        · split at h
          · rcases seqRes_error h with h2 | h2 <;> exact ih _ _ _ _ h2
          · simp at h; exact h.symm

theorem updLast_cons (b : Option (Nat × Nat)) (x : Pos) (l : List Pos) :
    updLast b (x :: l) = updLast (some (x.ti, x.ci)) l := by
  cases l with
  | nil => rfl
  | cons y l2 =>
    unfold updLast
    rw [List.getLast?_cons_cons]
    cases h : (y :: l2).getLast? with
    | none => exact absurd (List.getLast?_eq_none_iff.mp h) (by simp)
    | some p => rfl

theorem updLast_append (b : Option (Nat × Nat)) (l1 l2 : List Pos) :
    updLast b (l1 ++ l2) = updLast (updLast b l1) l2 := by
  induction l1 generalizing b with
  | nil => rfl
  | cons x l1 ih => rw [List.cons_append, updLast_cons, ih, updLast_cons]

theorem updLast_if_cons (b : Option (Nat × Nat)) (x : Pos) (l : List Pos) (c : Bool) :
    updLast b (if c then x :: l else l)
      = updLast (if c then some (x.ti, x.ci) else b) l := by
  cases c with
  | true => simp [updLast_cons]
  | false => simp

theorem scanStr_spec (maxLen ti ln : Nat) : ∀ (s : List Char) (ci : Nat)
    (bn bs ba : Option (Nat × Nat)),
    scanStr maxLen ti ln ci s bn bs ba =
      (updLast bn ((posOfStr ti ln ci s).filter (fun p => p.ch = '\n' && pValid maxLen p)),
       updLast bs ((posOfStr ti ln ci s).filter (fun p => p.ch = ' ' && pValid maxLen p)),
       updLast ba ((posOfStr ti ln ci s).filter (fun p => pValid maxLen p))) := by
  intro s
  induction s with
  | nil => intro ci bn bs ba; rfl
  | cons c rest ih =>
    intro ci bn bs ba
    rw [scanStr, posOfStr]
    rw [ih]
    congr 1
    · rw [List.filter_cons, updLast_if_cons]
      congr 1
      by_cases hv : ln + ci + 1 ≤ maxLen <;> by_cases hc : c = '\n' <;>
        simp [pValid, hv, hc]
    congr 1
    · rw [List.filter_cons, updLast_if_cons]
      congr 1
      by_cases hv : ln + ci + 1 ≤ maxLen <;> by_cases hc : c = ' ' <;>
        simp [pValid, hv, hc]
    · rw [List.filter_cons, updLast_if_cons]
      congr 1
      by_cases hv : ln + ci + 1 ≤ maxLen <;> simp [pValid, hv]

theorem posOfStr_ln (ti ln : Nat) : ∀ (s : List Char) (ci : Nat) (p : Pos),
    p ∈ posOfStr ti ln ci s → p.ln = ln := by
  intro s
  induction s with
  | nil => intro ci p h; simp [posOfStr] at h
  | cons c rest ih =>
    intro ci p h
    rw [posOfStr] at h
    rcases List.mem_cons.mp h with h1 | h1
    · rw [h1]
    · exact ih (ci + 1) p h1

theorem posList_ln_mono : ∀ (toks : List Tok) (ti ln : Nat) (p : Pos),
    p ∈ posList ti ln toks → ln ≤ p.ln := by
  intro toks
  induction toks with
  | nil => intro ti ln p h; simp [posList] at h
  | cons t ts ih =>
    intro ti ln p h
    cases t with
    | text s =>
      rw [posList] at h
      rcases List.mem_append.mp h with h1 | h1
      · rw [posOfStr_ln ti ln s 0 p h1]
      · have := ih (ti + 1) (ln + s.length) p h1
        omega
    | tag n a c =>
      rw [posList] at h
      have := ih (ti + 1) (ln + token_len1 (.tag n a c)) p h
      omega

theorem filter_valid_nil (maxLen ln : Nat) (l : List Pos) (f : Pos → Bool)
    (hln : ∀ p ∈ l, ln ≤ p.ln) (hmax : maxLen < ln)
    (hf : ∀ p, f p = true → pValid maxLen p = true) :
    l.filter f = [] := by
  rw [List.filter_eq_nil_iff]
  intro p hp hfp
  have h1 := hln p hp
  have h2 := hf p hfp
  simp [pValid] at h2
  omega

theorem scanToks_spec (maxLen : Nat) : ∀ (toks : List Tok) (ti ln : Nat)
    (bn bs ba : Option (Nat × Nat)),
    scanToks maxLen ti ln toks (bn, bs, ba) =
      (updLast bn ((posList ti ln toks).filter (fun p => p.ch = '\n' && pValid maxLen p)),
       updLast bs ((posList ti ln toks).filter (fun p => p.ch = ' ' && pValid maxLen p)),
       updLast ba ((posList ti ln toks).filter (fun p => pValid maxLen p))) := by
  intro toks
  induction toks with
  | nil => intro ti ln bn bs ba; rfl
  | cons t ts ih =>
    intro ti ln bn bs ba
    rw [show scanToks maxLen ti ln (t :: ts) (bn, bs, ba) =
      (if maxLen < ln then (bn, bs, ba)
       else
        match t with
        | .tag n a c => scanToks maxLen (ti + 1) (ln + token_len1 (.tag n a c)) ts (bn, bs, ba)
        | .text s => scanToks maxLen (ti + 1) (ln + s.length) ts (scanStr maxLen ti ln 0 s bn bs ba)) from rfl]
    by_cases hbr : maxLen < ln
    · rw [if_pos hbr]
      have hmono : ∀ p ∈ posList ti ln (t :: ts), ln ≤ p.ln := posList_ln_mono (t :: ts) ti ln
      rw [filter_valid_nil maxLen ln _ _ hmono hbr (fun p hp => by
            simp at hp; exact (by simp [hp.2] : pValid maxLen p = true)),
          filter_valid_nil maxLen ln _ _ hmono hbr (fun p hp => by
            simp at hp; exact (by simp [hp.2] : pValid maxLen p = true)),
          filter_valid_nil maxLen ln _ _ hmono hbr (fun p hp => hp)]
      rfl
    · rw [if_neg hbr]
      cases t with
      | tag n a c =>
        rw [posList]
        exact ih (ti + 1) (ln + token_len1 (.tag n a c)) bn bs ba
      | text s =>
        rw [posList]
        show scanToks maxLen (ti + 1) (ln + s.length) ts (scanStr maxLen ti ln 0 s bn bs ba) = _
        rw [scanStr_spec, ih]
        simp only [List.filter_append, updLast_append]

/-- The scan's three best-so-far results are exactly the declarative
"furthest valid cut of each kind", and the implementation's choice is
exactly `specBestCut`. -/
theorem bestCutImpl_eq_spec (maxLen outer : Nat) (toks : List Tok) :
    bestCutImpl maxLen outer toks = specBestCut maxLen outer toks := by
  unfold bestCutImpl specBestCut specNl specSp specAny
  rw [scanToks_spec]

theorem mem_of_getLast? {α : Type} : ∀ {l : List α} {p : α}, l.getLast? = some p → p ∈ l := by
  intro l
  induction l with
  | nil => intro p h; simp at h
  | cons x l2 ih =>
    intro p h
    cases l2 with
    | nil => simp at h; simp [h]
    | cons y l3 =>
      rw [List.getLast?_cons_cons] at h
      exact List.mem_cons_of_mem x (ih h)

theorem posOfStr_mem (ti ln : Nat) : ∀ (s : List Char) (ci : Nat) (p : Pos),
    p ∈ posOfStr ti ln ci s →
    p.ti = ti ∧ p.ln = ln ∧ ci ≤ p.ci ∧ p.ci - ci < s.length ∧ s.get? (p.ci - ci) = some p.ch := by
  intro s
  induction s with
  | nil => intro ci p h; simp [posOfStr] at h
  | cons c rest ih =>
    intro ci p h
    rw [posOfStr] at h
    rcases List.mem_cons.mp h with h1 | h1
    · subst h1
      refine ⟨rfl, rfl, le_refl ci, ?_, ?_⟩ <;> simp
    · obtain ⟨e1, e2, e3, e4, e5⟩ := ih (ci + 1) p h1
      refine ⟨e1, e2, by omega, by simp; omega, ?_⟩
      rw [show p.ci - ci = (p.ci - (ci + 1)) + 1 from by omega]
      simpa using e5

theorem posList_mem : ∀ (toks : List Tok) (ti ln : Nat) (p : Pos),
    p ∈ posList ti ln toks →
    ∃ k s, toks.get? k = some (.text s) ∧ p.ti = ti + k ∧ p.ci < s.length
      ∧ s.get? p.ci = some p.ch ∧ p.ln = ln + token_len (toks.take k) := by
  intro toks
  induction toks with
  | nil => intro ti ln p h; simp [posList] at h
  | cons t ts ih =>
    intro ti ln p h
    cases t with
    | text s =>
      rw [posList] at h
      rcases List.mem_append.mp h with h1 | h1
      · obtain ⟨e1, e2, _, e4, e5⟩ := posOfStr_mem ti ln s 0 p h1
        exact ⟨0, s, by simp, by omega, by simpa using e4, by simpa using e5,
          by simp [e2, token_len]⟩
      · obtain ⟨k, s2, e1, e2, e3, e4, e5⟩ := ih (ti + 1) (ln + s.length) p h1
        refine ⟨k + 1, s2, by simpa using e1, by omega, e3, e4, ?_⟩
        rw [e5]
        simp [token_len, token_len1]
        omega
    | tag n a c =>
      rw [posList] at h
      obtain ⟨k, s2, e1, e2, e3, e4, e5⟩ := ih (ti + 1) (ln + token_len1 (.tag n a c)) p h
      refine ⟨k + 1, s2, by simpa using e1, by omega, e3, e4, ?_⟩
      rw [e5]
      simp [token_len]
      omega

theorem token_len_append : ∀ (l1 l2 : List Tok), token_len (l1 ++ l2) = token_len l1 + token_len l2 := by
  intro l1 l2
  induction l1 with
  | nil => simp [token_len]
  | cons t ts ih => simp [token_len, ih]; omega

theorem token_str_append : ∀ (l1 l2 : List Tok), token_str (l1 ++ l2) = token_str l1 ++ token_str l2 := by
  intro l1 l2
  induction l1 with
  | nil => simp [token_str]
  | cons t ts ih => simp [token_str, ih]

/-- What a produced cut point means: it names a text token and a character
position inside it whose inclusive left part still fits the budget. -/
theorem specBestCut_valid (maxLen outer : Nat) (toks : List Tok) (ti ci : Nat)
    (h : specBestCut maxLen outer toks = some (ti, ci)) :
    ∃ s, toks.get? ti = some (.text s) ∧ ci < s.length
      ∧ outer + token_len (toks.take ti) + ci + 1 ≤ maxLen := by
  have hone : ∀ (f : Pos → Bool),
      (∀ p, f p = true → pValid maxLen p = true) →
      updLast none ((posList 0 outer toks).filter f) = some (ti, ci) →
      ∃ s, toks.get? ti = some (.text s) ∧ ci < s.length
        ∧ outer + token_len (toks.take ti) + ci + 1 ≤ maxLen := by
    intro f hf h1
    unfold updLast at h1
    cases h2 : ((posList 0 outer toks).filter f).getLast? with
    | none => rw [h2] at h1; simp at h1
    | some p =>
      rw [h2] at h1
      simp at h1
      have hp := mem_of_getLast? h2
      have hpf := List.of_mem_filter hp
      have hpl := List.mem_of_mem_filter hp
      obtain ⟨k, s, e1, e2, e3, e4, e5⟩ := posList_mem toks 0 outer p hpl
      have hv := hf p hpf
      simp [pValid] at hv
      refine ⟨s, ?_, ?_, ?_⟩
      · rw [← h1.1, e2]; simpa using e1
      · rw [← h1.2]; exact e3
      · rw [← h1.2]
        have : p.ti = k := by omega
        rw [← h1.1, e2, this] at *
        omega
  unfold specBestCut at h
  cases hn : specNl maxLen outer toks with
  | some v =>
    rw [hn] at h
    simp [Option.orElse] at h
    subst h
    exact hone _ (fun p hp => by simp at hp; simp [hp.2]) hn
  | none =>
    rw [hn] at h
    simp [Option.orElse] at h
    cases hs : specSp maxLen outer toks with
    | some v =>
      rw [hs] at h
      simp at h
      subst h
      exact hone _ (fun p hp => by simp at hp; simp [hp.2]) hs
    | none =>
      rw [hs] at h
      simp at h
      exact hone _ (fun p hp => hp) h

theorem toNat_ofNat_valid (n : Nat) (h : n < 55296) : (Char.ofNat n).toNat = n := by
  have hv : n.isValidChar := Or.inl h
  simp [Char.ofNat, hv, Char.ofNatAux, Char.toNat, UInt32.ofNat', UInt32.toNat]

theorem toLower_hi (c : Char) (h : c.toNat ≥ 65 ∧ c.toNat ≤ 90) :
    Char.toLower c = Char.ofNat (c.toNat + 32) := by
  simp only [Char.toLower]
  rw [if_pos h]

theorem toLower_lo (c : Char) (h : ¬(c.toNat ≥ 65 ∧ c.toNat ≤ 90)) :
    Char.toLower c = c := by
  simp only [Char.toLower]
  rw [if_neg h]

theorem toLower_idem (c : Char) : Char.toLower (Char.toLower c) = Char.toLower c := by
  by_cases h : c.toNat ≥ 65 ∧ c.toNat ≤ 90
  · have h2 : (Char.ofNat (c.toNat + 32)).toNat = c.toNat + 32 := toNat_ofNat_valid _ (by omega)
    rw [toLower_hi c h, toLower_lo]
    rw [h2]
    omega
  · rw [toLower_lo c h, toLower_lo c h]

theorem toLower_not_upper (c : Char) (d : Char) (hd : d.toNat ≥ 65 ∧ d.toNat ≤ 90) :
    Char.toLower c ≠ d := by
  by_cases h : c.toNat ≥ 65 ∧ c.toNat ≤ 90
  · rw [toLower_hi c h]
    intro he
    have h2 : (Char.ofNat (c.toNat + 32)).toNat = c.toNat + 32 := toNat_ofNat_valid _ (by omega)
    rw [he] at h2
    omega
  · rw [toLower_lo c h]
    intro he
    subst he
    exact h hd

theorem lowerStr_idem (p : List Char) : lowerStr (lowerStr p) = lowerStr p := by
  simp only [lowerStr, List.map_map]
  exact List.map_congr_left (fun c _ => toLower_idem c)

theorem lowerStr_head_not_upper (p : List Char) (d : Char) (rest : List Char)
    (hd : d.toNat ≥ 65 ∧ d.toNat ≤ 90) : lowerStr p ≠ d :: rest := by
  cases p with
  | nil => simp [lowerStr]
  | cons c cs =>
    intro he
    simp only [lowerStr, List.map_cons] at he
    injection he with h1 h2
    exact toLower_not_upper c d hd h1

theorem chunk_html_error_shape (maxLen : Nat) (toks : List Tok) (ins : Inside) (e : ChunkErr)
    (h : chunk_html maxLen toks ins = .error e) : e = .notPossible := by
  unfold chunk_html at h
  cases h2 : chunkHtmlF (token_len toks + 1) maxLen toks ins with
  | none => rw [h2] at h; simp [Option.getD] at h; exact h.symm
  | some r =>
    rw [h2] at h
    simp [Option.getD] at h
    cases r with
    | error e2 => simp at h; exact h ▸ chunkHtmlF_error_shape _ _ _ _ _ h2
    | ok cs => simp at h

/-- C10.  The facade lowercases the mode before dispatch, so mode matching
is case-insensitive; empty mode selects plain newline segmentation; and
since the membership test against `{"MarkdownV2", "Markdown"}` compares a
lowercased string with capitalized constants, it can never match: the
markdown modes fall through to the generic unknown-mode error, and no
input whatsoever reaches the `NotImplementedError` branch. -/
theorem C10_mode_dispatch (maxLen : Nat) (text parseMode : List Char) :
    chunk maxLen text parseMode = chunk maxLen text (lowerStr parseMode)
    ∧ (maxLen < text.length →
        (chunk maxLen text "HTML".data = chunk maxLen text "html".data
         ∧ chunk maxLen text "Html".data = chunk maxLen text "html".data
         ∧ chunk maxLen text [] = chunk_by_newlines text maxLen
         ∧ chunk maxLen text "Markdown".data = .error .unknownMode
         ∧ chunk maxLen text "MarkdownV2".data = .error .unknownMode))
    ∧ chunk maxLen text parseMode ≠ .error .notImplemented := by
  have hlower : ∀ q : List Char, chunk maxLen text q = chunk maxLen text (lowerStr q) := by
    intro q
    simp only [chunk, lowerStr_idem]
  have hshortneg : ∀ h : maxLen < text.length, ¬ (text.length ≤ maxLen) := fun h => by omega
  refine ⟨hlower parseMode, fun hlong => ?_, ?_⟩
  · have h1 : chunk maxLen text "HTML".data = chunk maxLen text "html".data := by
      rw [hlower "HTML".data]
      norm_num [show lowerStr "HTML".data = "html".data from by decide]
    have h2 : chunk maxLen text "Html".data = chunk maxLen text "html".data := by
      rw [hlower "Html".data]
      norm_num [show lowerStr "Html".data = "html".data from by decide]
    have h3 : chunk maxLen text [] = chunk_by_newlines text maxLen := by
      simp only [chunk]
      rw [if_neg (hshortneg hlong)]
      simp [lowerStr]
    have h4 : chunk maxLen text "Markdown".data = .error .unknownMode := by
      rw [hlower "Markdown".data]
      rw [show lowerStr "Markdown".data = "markdown".data from by decide]
      simp only [chunk]
      rw [if_neg (hshortneg hlong)]
      rw [show lowerStr "markdown".data = "markdown".data from by decide]
      rw [if_neg (show ¬("markdown".data = ([] : List Char)) from by decide)]
      rw [if_neg (show ¬("markdown".data = "html".data) from by decide)]
      rw [if_neg (show ¬("markdown".data = "MarkdownV2".data ∨ "markdown".data = "Markdown".data) from by decide)]
    have h5 : chunk maxLen text "MarkdownV2".data = .error .unknownMode := by
      rw [hlower "MarkdownV2".data]
      rw [show lowerStr "MarkdownV2".data = "markdownv2".data from by decide]
      simp only [chunk]
      rw [if_neg (hshortneg hlong)]
      rw [show lowerStr "markdownv2".data = "markdownv2".data from by decide]
      rw [if_neg (show ¬("markdownv2".data = ([] : List Char)) from by decide)]
      rw [if_neg (show ¬("markdownv2".data = "html".data) from by decide)]
      rw [if_neg (show ¬("markdownv2".data = "MarkdownV2".data ∨ "markdownv2".data = "Markdown".data) from by decide)]
    exact ⟨h1, h2, h3, h4, h5⟩
  · simp only [chunk]
    split
    · simp
    · split
      · intro h
        exact absurd (chunkGo_error_shape _ _ _ _ h) (by decide)
      · split
        · split
          · simp
          · intro h
            exact absurd (chunk_html_error_shape _ _ _ _ h) (by decide)
        · split
          · next hmem =>
            exfalso
            rcases hmem with hm | hm
            · exact lowerStr_head_not_upper parseMode 'M' _ (by decide) hm
            · exact lowerStr_head_not_upper parseMode 'M' _ (by decide) hm
          · simp

/-- Witness for C10 at a concrete long input and markdown mode. -/
theorem C10_mode_dispatch_witness :
    (3 < "abcd".data.length) ∧ chunk 3 "abcd".data "Markdown".data = .error .unknownMode :=
  ⟨by decide, ((C10_mode_dispatch 3 "abcd".data "Markdown".data).2.1 (by decide)).2.2.2.1⟩

/-! ## Parser step lemmas; C9 -/
theorem parseContentF_succ (fuel : Nat) (cs : List Char) :
    parseContentF (fuel+1) cs =
    match cs with
    | [] => some ([], [])
    | c :: rest =>
      if c = '<' then
        if rest.head? = some '/' then some ([], cs)
        else
          match matchName rest with
          | none => none
          | some n =>
            match parseAttrsF ((rest.drop n.length).length + 1) (rest.drop n.length) with
            | none => none
            | some (attrs, rest2) =>
              match rest2 with
              | g :: rest3 =>
                if g = '>' then
                  match parseContentF fuel rest3 with
                  | none => none
                  | some (inner, rest4) =>
                    match rest4 with
                    | c4 :: c5 :: rest5 =>
                      if c4 = '<' && c5 = '/' then
                        match matchName rest5 with
                        | none => none
                        | some n2 =>
                          if n2 = n then
                            match rest5.drop n2.length with
                            | g2 :: rest6 =>
                              if g2 = '>' then
                                match parseContentF fuel rest6 with
                                | none => none
                                | some (ts, restF) => some (Tok.tag n attrs inner :: ts, restF)
                              else none
                            | _ => none
                          else none
                      else none
                    | _ => none
                else none
              | _ => none
      else if c = '>' then none
      else
        match parseContentF fuel (cs.dropWhile isTextChar) with
        | none => none
        | some (ts, restF) => some (Tok.text (cs.takeWhile isTextChar) :: ts, restF) := rfl

/-- Parsing a nonempty markup-free string: the whole input is one maximal
`STRING` run. -/
theorem parse_plain_text (s : List Char) (hne : s ≠ []) (hall : ∀ c ∈ s, isTextChar c) :
    parse s = some [Tok.text s] := by
  obtain ⟨c, rest, rfl⟩ := List.exists_cons_of_ne_nil hne
  have hc : isTextChar c = true := hall c (by simp)
  have hc1 : ¬(c = '<') := by simp [isTextChar] at hc; exact hc.1
  have hc2 : ¬(c = '>') := by simp [isTextChar] at hc; exact hc.2
  have htake : (c :: rest).takeWhile isTextChar = c :: rest := by
    rw [List.takeWhile_eq_self_iff]
    exact fun a ha => hall a ha
  have hdrop : (c :: rest).dropWhile isTextChar = [] := by
    rw [List.dropWhile_eq_nil_iff]
    exact fun a ha => hall a ha
  unfold parse
  rw [show (c :: rest).length + 1 = rest.length + 1 + 1 from by simp]
  rw [parseContentF_succ]
  simp only [if_neg hc1, if_neg hc2, hdrop, htake]
  rw [show rest.length + 1 = rest.length + 1 from rfl]
  rw [parseContentF_succ]

/-- C9, counterexample to the claim at the empty string: the empty string
parses to the empty document `[]`, not to a single-element document
holding an empty `Text` node. -/
theorem C9_empty_string_counterexample :
    parse ([] : List Char) = some [] ∧ parse ([] : List Char) ≠ some [Tok.text []] :=
  ⟨rfl, fun h => by
    have h2 : (some ([] : List Tok)) = some [Tok.text []] := h
    simp at h2⟩

/-- C9 (amended).  A string with no `<` and no `>` always parses; a
nonempty one to a single-element document holding one `Text` node with
the input as value, while the empty string parses to the empty document
(`content: (tag | plain_text)*` matches zero repetitions, since `STRING`
requires at least one character). -/
theorem C9_parse_plain_text (s : List Char) (hall : ∀ c ∈ s, isTextChar c) :
    parse s = some (if s.isEmpty then [] else [Tok.text s]) := by
  cases hs : s with
  | nil => rfl
  | cons c rest =>
    rw [show (c :: rest).isEmpty = false from rfl]
    exact parse_plain_text (c :: rest) (by simp) (hs ▸ hall)

/-- Witness for C9 at a concrete plain string. -/
theorem C9_parse_plain_text_witness :
    (∀ c ∈ "hi!".data, isTextChar c)
    ∧ parse "hi!".data = some (if "hi!".data.isEmpty then [] else [Tok.text "hi!".data]) :=
  ⟨by decide, C9_parse_plain_text "hi!".data (by decide)⟩

/-! ## Fuel congruence and sufficiency for the markup segmenter -/
theorem toks_decomp {toks : List Tok} {ti : Nat} {t0 : Tok} (h : toks.get? ti = some t0) :
    toks = toks.take ti ++ t0 :: toks.drop (ti + 1) := by
  rw [List.get?_eq_getElem?] at h
  rw [List.getElem?_eq_some] at h
  obtain ⟨hlt, he⟩ := h
  conv_lhs => rw [← List.take_append_drop ti toks]
  rw [List.drop_eq_getElem_cons hlt, he]

theorem token_len_get {toks : List Tok} {ti : Nat} {t0 : Tok} (h : toks.get? ti = some t0) :
    token_len toks = token_len (toks.take ti) + token_len1 t0 + token_len (toks.drop (ti + 1)) := by
  conv_lhs => rw [toks_decomp h]
  rw [token_len_append]
  simp [token_len]
  omega

theorem token_len_rightOfCut {toks : List Tok} {s : List Char} {ti ci : Nat}
    (h : toks.get? ti = some (.text s)) (hci : ci < s.length) :
    token_len (rightOfCut toks s ti ci) + (ci + 1) + token_len (toks.take ti) = token_len toks := by
  rw [token_len_get h]
  unfold rightOfCut
  rw [token_len_append]
  have hlen : token_len (if (s.drop (ci + 1)).isEmpty then []
      else [Tok.text (s.drop (ci + 1))]) = s.length - (ci + 1) := by
    by_cases hd : (s.drop (ci + 1)).isEmpty
    · rw [if_pos hd]
      simp [token_len]
      rw [List.isEmpty_iff, List.drop_eq_nil_iff] at hd
      omega
    · rw [if_neg hd]
      simp [token_len, token_len1]
  rw [hlen]
  simp [token_len1, token_len]
  omega

theorem token_len_rightOfCut_lt {toks : List Tok} {s : List Char} {ti ci : Nat}
    (h : toks.get? ti = some (.text s)) (hci : ci < s.length) :
    token_len (rightOfCut toks s ti ci) < token_len toks := by
  have := token_len_rightOfCut h hci
  omega

theorem token_len1_tag_ge (n : List Char) (a : List (List Char)) (c : List Tok) :
    token_len c + 5 ≤ token_len1 (.tag n a c) := by
  simp [token_len1, token_open_len, token_close_len]
  omega

theorem chunkHtmlF_congr : ∀ (N : Nat) (toks : List Tok), token_len toks < N →
    ∀ (f f' m : Nat) (ins : Inside), token_len toks < f → token_len toks < f' →
    chunkHtmlF f m toks ins = chunkHtmlF f' m toks ins := by
  intro N
  induction N using Nat.strong_induction_on with
  | _ N ih =>
    intro toks hN f f' m ins hf hf'
    obtain ⟨g, rfl⟩ : ∃ k, f = k + 1 := ⟨f - 1, by omega⟩
    obtain ⟨g', rfl⟩ : ∃ m2, f' = m2 + 1 := ⟨f' - 1, by omega⟩
    cases toks with
    | nil => rfl
    | cons t0 rest =>
      rw [chunkHtmlF_cons, chunkHtmlF_cons]
      by_cases hfit : token_len (t0 :: rest) + ((openAll ins).length + (closeAll ins).length) ≤ m
      · rw [if_pos hfit, if_pos hfit]
      · rw [if_neg hfit, if_neg hfit]
        cases hbc : bestCutImpl m ((openAll ins).length + (closeAll ins).length) (t0 :: rest) with
        | some v =>
          obtain ⟨ti, ci⟩ := v
          have hbs := hbc
          rw [bestCutImpl_eq_spec] at hbs
          obtain ⟨s, hg, hci, _⟩ := specBestCut_valid _ _ _ _ _ hbs
          simp only [chunkCutStep, hg]
          have hlt := token_len_rightOfCut_lt hg hci
          have hrec := ih (token_len (rightOfCut (t0 :: rest) s ti ci) + 1) (by omega)
            (rightOfCut (t0 :: rest) s ti ci) (by omega) g g' m ins (by omega) (by omega)
          rw [hrec]
        | none =>
          cases t0 with
          | text s => rfl
          | tag n a c =>
            have h5 := token_len1_tag_ge n a c
            have hc : token_len c < token_len (Tok.tag n a c :: rest) := by
              simp [token_len]; omega
            have hr : token_len rest < token_len (Tok.tag n a c :: rest) := by
              simp [token_len]; omega
            have hrec1 := ih (token_len c + 1) (by omega) c (by omega) g g' m
              (ins ++ [(n, a)]) (by omega) (by omega)
            have hrec2 := ih (token_len rest + 1) (by omega) rest (by omega) g g' m
              ins (by omega) (by omega)
            simp only [chunkCutStep, hrec1, hrec2]

theorem chunkHtmlF_isSome : ∀ (N : Nat) (toks : List Tok), token_len toks < N →
    ∀ (f m : Nat) (ins : Inside), token_len toks < f →
    (chunkHtmlF f m toks ins).isSome := by
  intro N
  induction N using Nat.strong_induction_on with
  | _ N ih =>
    intro toks hN f m ins hf
    obtain ⟨g, rfl⟩ : ∃ g, f = g + 1 := ⟨f - 1, by omega⟩
    cases toks with
    | nil => rfl
    | cons t0 rest =>
      rw [chunkHtmlF_cons]
      by_cases hfit : token_len (t0 :: rest) + ((openAll ins).length + (closeAll ins).length) ≤ m
      · rw [if_pos hfit]; rfl
      · rw [if_neg hfit]
        cases hbc : bestCutImpl m ((openAll ins).length + (closeAll ins).length) (t0 :: rest) with
        | some v =>
          obtain ⟨ti, ci⟩ := v
          have hbs := hbc
          rw [bestCutImpl_eq_spec] at hbs
          obtain ⟨s, hg, hci, _⟩ := specBestCut_valid _ _ _ _ _ hbs
          simp only [chunkCutStep, hg]
          have hlt := token_len_rightOfCut_lt hg hci
          have hrec := ih (token_len (rightOfCut (t0 :: rest) s ti ci) + 1) (by omega)
            (rightOfCut (t0 :: rest) s ti ci) (by omega) g m ins (by omega)
          cases hrw : chunkHtmlF g m (rightOfCut (t0 :: rest) s ti ci) ins with
          | none => rw [hrw] at hrec; simp at hrec
          | some r => cases r <;> simp [consRes]
        | none =>
          cases t0 with
          | text s => rfl
          | tag n a c =>
            have h5 := token_len1_tag_ge n a c
            have hc : token_len c < token_len (Tok.tag n a c :: rest) := by
              simp [token_len]; omega
            have hr : token_len rest < token_len (Tok.tag n a c :: rest) := by
              simp [token_len]; omega
            have hrec1 := ih (token_len c + 1) (by omega) c (by omega) g m
              (ins ++ [(n, a)]) (by omega)
            have hrec2 := ih (token_len rest + 1) (by omega) rest (by omega) g m
              ins (by omega)
            simp only [chunkCutStep]
            cases hrw1 : chunkHtmlF g m c (ins ++ [(n, a)]) with
            | none => rw [hrw1] at hrec1; simp at hrec1
            | some r1 =>
              cases r1 with
              | error e => simp [seqRes]
              | ok l =>
                cases hrw2 : chunkHtmlF g m rest ins with
                | none => rw [hrw2] at hrec2; simp at hrec2
                | some r2 => cases r2 <;> simp [seqRes]

/-- With sufficient fuel, `chunkHtmlF` computes exactly `chunk_html`. -/
theorem chunkHtmlF_eq_some_chunk_html (g m : Nat) (toks : List Tok) (ins : Inside)
    (h : token_len toks < g) :
    chunkHtmlF g m toks ins = some (chunk_html m toks ins) := by
  have hc := chunkHtmlF_congr (token_len toks + 1) toks (by omega) g (token_len toks + 1)
    m ins h (by omega)
  have hs := chunkHtmlF_isSome (token_len toks + 1) toks (by omega) (token_len toks + 1)
    m ins (by omega)
  cases hrw : chunkHtmlF (token_len toks + 1) m toks ins with
  | none => rw [hrw] at hs; simp at hs
  | some r =>
    rw [hc, hrw]
    unfold chunk_html
    rw [hrw]
    rfl

/-! ## C2: the budget is respected -/
theorem chunkGo_bound : ∀ (ps : List (List Char)) (maxLen : Nat) (acc : List Char)
    (cs : List (List Char)), acc.length ≤ maxLen → chunkGo maxLen acc ps = .ok cs →
    ∀ c ∈ cs, c.length ≤ maxLen := by
  intro ps
  induction ps with
  | nil =>
    intro maxLen acc cs hacc h c hc
    simp [chunkGo] at h
    rw [← h] at hc
    simp at hc
    rw [hc]
    exact hacc
  | cons p ps ih =>
    intro maxLen acc cs hacc h c hc
    unfold chunkGo at h
    split at h
    · simp at h
    · next hp =>
      split at h
      · cases h2 : chunkGo maxLen p ps with
        | error e2 => rw [h2] at h; simp [Except.map] at h
        | ok cs2 =>
          rw [h2] at h
          simp [Except.map] at h
          rw [← h] at hc
          rcases List.mem_cons.mp hc with h3 | h3
          · rw [h3]; exact hacc
          · exact ih maxLen p cs2 (by omega) h2 c h3
      · exact ih maxLen _ cs (by omega) h c hc

theorem token_len_leftOfCut (toks : List Tok) (s : List Char) (ti ci : Nat)
    (hci : ci < s.length) :
    token_len (leftOfCut toks s ti ci) = token_len (toks.take ti) + (ci + 1) := by
  unfold leftOfCut
  rw [token_len_append]
  simp [token_len, token_len1]
  omega

theorem chunkHtmlF_bound : ∀ (fuel maxLen : Nat) (toks : List Tok) (ins : Inside)
    (cs : List (List Char)), chunkHtmlF fuel maxLen toks ins = some (.ok cs) →
    ∀ c ∈ cs, c.length ≤ maxLen := by
  intro fuel
  induction fuel with
  | zero => intro m toks ins cs h; simp [chunkHtmlF] at h
  | succ f ih =>
    intro m toks ins cs h c hc
    cases toks with
    | nil =>
      rw [chunkHtmlF_nil] at h
      simp at h
      rw [h] at hc
      simp at hc
    | cons t0 rest =>
      rw [chunkHtmlF_cons] at h
      split at h
      · next hfit =>
        simp at h
        rw [← h] at hc
        simp at hc
        rw [hc]
        simp only [List.length_append]
        rw [← C5_token_len_eq_length_token_str]
        omega
      · next hfit =>
        cases hbc : bestCutImpl m ((openAll ins).length + (closeAll ins).length) (t0 :: rest) with
        | some v =>
          obtain ⟨ti, ci⟩ := v
          rw [hbc] at h
          have hbs := hbc
          rw [bestCutImpl_eq_spec] at hbs
          obtain ⟨s, hg, hci, hval⟩ := specBestCut_valid _ _ _ _ _ hbs
          simp only [chunkCutStep, hg] at h
          cases h2 : chunkHtmlF f m (rightOfCut (t0 :: rest) s ti ci) ins with
          | none => rw [h2] at h; simp [consRes] at h
          | some r =>
            rw [h2] at h
            cases r with
            | error e => simp [consRes] at h
            | ok cs2 =>
              simp [consRes] at h
              rw [← h] at hc
              rcases List.mem_cons.mp hc with h3 | h3
              · rw [h3]
                simp only [List.length_append]
                have e1 := C5_token_len_eq_length_token_str (leftOfCut (t0 :: rest) s ti ci)
                have e2 := token_len_leftOfCut (t0 :: rest) s ti ci hci
                omega
              · exact ih m _ ins cs2 h2 c h3
        | none =>
          rw [hbc] at h
          cases t0 with
          | text s => simp [chunkCutStep] at h
          | tag n a cnt =>
            simp only [chunkCutStep] at h
            cases h2 : chunkHtmlF f m cnt (ins ++ [(n, a)]) with
            | none => rw [h2] at h; simp [seqRes] at h
            | some r1 =>
              rw [h2] at h
              cases r1 with
              | error e => simp [seqRes] at h
              | ok l =>
                cases h3 : chunkHtmlF f m rest ins with
                | none => rw [h3] at h; simp [seqRes] at h
                | some r2 =>
                  rw [h3] at h
                  cases r2 with
                  | error e => simp [seqRes] at h
                  | ok rr =>
                    simp [seqRes] at h
                    rw [← h] at hc
                    rcases List.mem_append.mp hc with h4 | h4
                    · exact ih m cnt _ l h2 c h4
                    · exact ih m rest ins rr h3 c h4

/-- C2.  Every chunk any of the three segmentation functions produces is
within the budget: its literal length, all markup wrapping included, is
at most `max_length`. -/
theorem C2_budget_respected (maxLen : Nat) :
    (∀ (text parseMode : List Char) (cs : List (List Char)),
      chunk maxLen text parseMode = .ok cs → ∀ c ∈ cs, c.length ≤ maxLen)
    ∧ (∀ (text : List Char) (cs : List (List Char)),
      chunk_by_newlines text maxLen = .ok cs → ∀ c ∈ cs, c.length ≤ maxLen)
    ∧ (∀ (toks : List Tok) (ins : Inside) (cs : List (List Char)),
      chunk_html maxLen toks ins = .ok cs → ∀ c ∈ cs, c.length ≤ maxLen) := by
  have hnl : ∀ (text : List Char) (cs : List (List Char)),
      chunk_by_newlines text maxLen = .ok cs → ∀ c ∈ cs, c.length ≤ maxLen := by
    intro text cs h
    exact chunkGo_bound (splitNl text) maxLen [] cs (by simp) h
  have hht : ∀ (toks : List Tok) (ins : Inside) (cs : List (List Char)),
      chunk_html maxLen toks ins = .ok cs → ∀ c ∈ cs, c.length ≤ maxLen := by
    intro toks ins cs h
    unfold chunk_html at h
    cases h2 : chunkHtmlF (token_len toks + 1) maxLen toks ins with
    | none => rw [h2] at h; simp [Option.getD] at h
    | some r =>
      rw [h2] at h
      simp [Option.getD] at h
      rw [h] at h2
      exact chunkHtmlF_bound _ _ _ _ _ h2
  refine ⟨?_, hnl, hht⟩
  intro text parseMode cs h
  unfold chunk at h
  split at h
  · next hshort =>
    simp at h
    intro c hc
    rw [← h] at hc
    simp at hc
    rw [hc]
    omega
  · split at h
    · exact hnl text cs h
    · split at h
      · split at h
        · simp at h
        · exact hht _ [] cs h
      · split at h
        · simp at h
        · simp at h

/-- Witness for C2 at a concrete run of each function. -/
theorem C2_budget_respected_witness :
    chunk 5 "line1\n\nline2".data [] = .ok ["line1".data, "line2".data]
    ∧ ∀ c ∈ ["line1".data, "line2".data], c.length ≤ 5 :=
  ⟨check_assert_14, fun c hc =>
    (C2_budget_respected 5).1 "line1\n\nline2".data [] _ check_assert_14 c hc⟩

/-! ## C6: the cut policy; C7: atomic-unit failures -/
/-- C6.  When the sibling sequence overflows the budget and a valid cut
position exists, the segmenter cuts at exactly the position `specBestCut`
describes: the furthest valid newline position if any, else the furthest
valid space position, else the furthest valid position of any character
(the scan's best-so-far registers compute precisely these, by
`bestCutImpl_eq_spec`).  The cut lies inside a text token; the left chunk
is the siblings before the cut plus the cut text token truncated through
the cut character inclusive, wrapped by the ancestor stack; and the
segmenter recurses on the remainder with the same ancestor stack. -/
theorem C6_cut_choice (maxLen : Nat) (toks : List Tok) (ins : Inside) (ti ci : Nat)
    (hne : toks ≠ [])
    (hover : maxLen < token_len toks + ((openAll ins).length + (closeAll ins).length))
    (hcut : specBestCut maxLen ((openAll ins).length + (closeAll ins).length) toks
      = some (ti, ci)) :
    ∃ s, toks.get? ti = some (.text s) ∧ ci < s.length ∧
      chunk_html maxLen toks ins =
        (chunk_html maxLen (rightOfCut toks s ti ci) ins).map
          (fun cs => (openAll ins ++ token_str (leftOfCut toks s ti ci) ++ closeAll ins) :: cs) := by
  obtain ⟨s, hg, hci, hval⟩ := specBestCut_valid _ _ _ _ _ hcut
  refine ⟨s, hg, hci, ?_⟩
  obtain ⟨t0, rest, rfl⟩ := List.exists_cons_of_ne_nil hne
  have h1 : chunkHtmlF (token_len (t0 :: rest) + 1) maxLen (t0 :: rest) ins =
      consRes (openAll ins ++ token_str (leftOfCut (t0 :: rest) s ti ci) ++ closeAll ins)
        (chunkHtmlF (token_len (t0 :: rest)) maxLen (rightOfCut (t0 :: rest) s ti ci) ins) := by
    rw [chunkHtmlF_cons]
    rw [if_neg (by omega)]
    rw [bestCutImpl_eq_spec, hcut]
    simp only [chunkCutStep, hg]
  have hlt := token_len_rightOfCut_lt hg hci
  rw [chunkHtmlF_eq_some_chunk_html (token_len (t0 :: rest)) maxLen _ ins (by omega)] at h1
  have h2 := chunkHtmlF_eq_some_chunk_html (token_len (t0 :: rest) + 1) maxLen (t0 :: rest)
    ins (by omega)
  have h3 := h2.symm.trans h1
  cases hr : chunk_html maxLen (rightOfCut (t0 :: rest) s ti ci) ins with
  | error e =>
    rw [hr] at h3
    simp [consRes] at h3
    rw [h3]
    rfl
  | ok cs =>
    rw [hr] at h3
    simp [consRes] at h3
    rw [h3]
    simp [Except.map, List.append_assoc]

/-- Witness for C6 at a concrete overflowing input with a newline cut. -/
theorem C6_cut_choice_witness :
    ∃ s, ([Tok.text "some\ntext !!!".data].get? 0 = some (Tok.text s)) ∧ 4 < s.length ∧
      chunk_html 5 [Tok.text "some\ntext !!!".data] [] =
        (chunk_html 5 (rightOfCut [Tok.text "some\ntext !!!".data] s 0 4) []).map
          (fun cs => (openAll [] ++ token_str (leftOfCut [Tok.text "some\ntext !!!".data] s 0 4)
            ++ closeAll []) :: cs) :=
  C6_cut_choice 5 [Tok.text "some\ntext !!!".data] [] 0 4 (by simp)
    (by decide) (by decide)

theorem filter_valid_nil2 (maxLen ln : Nat) (l : List Pos) (f : Pos → Bool)
    (hln : ∀ p ∈ l, ln ≤ p.ln) (hmax : maxLen ≤ ln)
    (hf : ∀ p, f p = true → pValid maxLen p = true) :
    l.filter f = [] := by
  rw [List.filter_eq_nil_iff]
  intro p hp hfp
  have h1 := hln p hp
  have h2 := hf p hfp
  simp [pValid] at h2
  omega

/-- When the wrapping overhead alone reaches the budget, no cut position
is valid and the scan reports nothing. -/
theorem specBestCut_none_of_outer (maxLen outer : Nat) (toks : List Tok)
    (h : maxLen ≤ outer) : specBestCut maxLen outer toks = none := by
  have hmono := posList_ln_mono toks 0 outer
  unfold specBestCut specNl specSp specAny
  rw [filter_valid_nil2 maxLen outer _ _ hmono h (fun p hp => by
        simp at hp; exact (by simp [hp.2] : pValid maxLen p = true)),
      filter_valid_nil2 maxLen outer _ _ hmono h (fun p hp => by
        simp at hp; exact (by simp [hp.2] : pValid maxLen p = true)),
      filter_valid_nil2 maxLen outer _ _ hmono h (fun p hp => hp)]
  rfl

theorem chunkGo_too_long : ∀ (ps : List (List Char)) (maxLen : Nat) (acc : List Char),
    (∃ p ∈ ps, maxLen < p.length) → chunkGo maxLen acc ps = .error .tooLongLine := by
  intro ps
  induction ps with
  | nil => intro maxLen acc h; simp at h
  | cons p ps ih =>
    intro maxLen acc h
    unfold chunkGo
    by_cases hp : maxLen < p.length
    · rw [if_pos hp]
    · rw [if_neg hp]
      have h2 : ∃ q ∈ ps, maxLen < q.length := by
        rcases h with ⟨q, hq, hql⟩
        rcases List.mem_cons.mp hq with h3 | h3
        · exact absurd (h3 ▸ hql) hp
        · exact ⟨q, h3, hql⟩
      split
      · rw [ih maxLen p h2]
        rfl
      · exact ih maxLen _ h2

/-- C7 (amended).  Plain mode fails exactly as the claim states: a
newline-delimited paragraph longer than the budget raises.  In markup
mode the failure condition is narrower than claimed: the `RuntimeError`
is raised when the sequence overflows, no cut position is valid (in
particular whenever the ancestor wrapping overhead alone reaches the
budget) and the first sibling is a text node; an element whose content
is empty never raises — its chunks are produced by recursing into an
empty sibling list, which yields nothing. -/
theorem C7_atomic_unit_failure :
    (∀ (text : List Char) (maxLen : Nat), (∃ p ∈ splitNl text, maxLen < p.length) →
      chunk_by_newlines text maxLen = .error .tooLongLine)
    ∧ (∀ (maxLen : Nat) (s : List Char) (rest : List Tok) (ins : Inside),
      maxLen < token_len (Tok.text s :: rest) + ((openAll ins).length + (closeAll ins).length) →
      maxLen ≤ (openAll ins).length + (closeAll ins).length →
      chunk_html maxLen (Tok.text s :: rest) ins = .error .notPossible) := by
  constructor
  · intro text maxLen h
    exact chunkGo_too_long (splitNl text) maxLen [] h
  · intro maxLen s rest ins hover houter
    unfold chunk_html
    have h1 : chunkHtmlF (token_len (Tok.text s :: rest) + 1) maxLen (Tok.text s :: rest) ins
        = some (.error .notPossible) := by
      rw [chunkHtmlF_cons]
      rw [if_neg (by omega)]
      rw [bestCutImpl_eq_spec, specBestCut_none_of_outer _ _ _ houter]
      rfl
    rw [h1]
    rfl

/-- Witness for C7 at concrete failing inputs for both modes. -/
theorem C7_atomic_unit_failure_witness :
    chunk_by_newlines "tiny\nwaaaytoolong".data 5 = .error .tooLongLine
    ∧ chunk_html 5 [Tok.text "x".data] [("b".data, []), ("i".data, [])]
        = .error .notPossible :=
  ⟨C7_atomic_unit_failure.1 "tiny\nwaaaytoolong".data 5
      ⟨"waaaytoolong".data, by decide, by decide⟩,
    C7_atomic_unit_failure.2 5 "x".data [] [("b".data, []), ("i".data, [])]
      (by decide) (by decide)⟩

/-- C7, counterexample to the claim's markup-mode condition: an empty
element wrapped in nested tags whose combined open/close overhead alone
exceeds the budget does NOT raise — the facade returns an empty chunk
sequence for `<b><i></i></b>` at budget 5. -/
theorem C7_empty_element_counterexample :
    chunk 5 "<b><i></i></b>".data "HTML".data = .ok [] := rfl

theorem isVarChar_ne (c : Char) (h : isVarChar c = true) :
    ¬(c = '>') ∧ ¬(c = '"') ∧ ¬(c = '\'') ∧ ¬(c = '<') := by
  refine ⟨?_, ?_, ?_, ?_⟩ <;> intro he <;> subst he <;> exact absurd h (by decide)

theorem names_chars : ∀ n ∈ TAG_NAMES, ∀ c ∈ n, ¬(c = '>') ∧ ¬(c = '"') ∧ ¬(c = '\'') := by
  decide

theorem takeWhile_append_drop (p : Char → Bool) : ∀ l : List Char,
    l.takeWhile p ++ l.drop (l.takeWhile p).length = l := by
  intro l
  induction l with
  | nil => rfl
  | cons c rest ih =>
    by_cases hc : p c
    · rw [List.takeWhile_cons, if_pos hc]
      simpa using ih
    · rw [List.takeWhile_cons, if_neg hc]
      rfl

theorem wfAttrB_decomp (a : List Char) (h : wfAttrB a = true) :
    ∃ k q v, a = k ++ '=' :: q :: (v ++ [q]) ∧ (∀ c ∈ k, isVarChar c = true)
      ∧ (q = '"' ∨ q = '\'') ∧ (∀ c ∈ v, ¬(c = q)) := by
  unfold wfAttrB at h
  rw [Bool.and_eq_true] at h
  obtain ⟨hk, hm⟩ := h
  cases hd : a.drop (a.takeWhile isVarChar).length with
  | nil => rw [hd] at hm; simp at hm
  | cons e rest0 =>
    cases rest0 with
    | nil => rw [hd] at hm; simp at hm
    | cons q rest =>
      rw [hd] at hm
      simp only [Bool.and_eq_true, decide_eq_true_eq] at hm
      obtain ⟨⟨⟨⟨he, hq⟩, hne⟩, hlast⟩, hall⟩ := hm
      have hrest : rest.dropLast ++ [q] = rest := by
        have hne2 : rest ≠ [] := by
          intro h2
          rw [h2] at hne
          simp at hne
        have h3 := List.dropLast_append_getLast hne2
        have h4 := List.getLast?_eq_getLast rest hne2
        rw [h4] at hlast
        simp at hlast
        rw [hlast] at h3
        exact h3
      refine ⟨a.takeWhile isVarChar, q, rest.dropLast, ?_, ?_, ?_, ?_⟩
      · conv_lhs => rw [← takeWhile_append_drop isVarChar a]
        rw [hd, hrest]
        rw [he]
      · intro c hc
        exact List.mem_takeWhile_imp hc
      · have hq2 := hq
        simp only [Bool.or_eq_true, decide_eq_true_eq] at hq2
        exact hq2
      · intro c hc
        have := List.all_eq_true.mp hall c hc
        simpa using this

theorem stripRun_tag_skip : ∀ (x r : List Char),
    (∀ c ∈ x, ¬(c = '>') ∧ ¬(c = '"') ∧ ¬(c = '\'')) →
    stripRun (x ++ r) StripMode.tag = stripRun r StripMode.tag := by
  intro x
  induction x with
  | nil => intro r h; rfl
  | cons c rest ih =>
    intro r h
    have hc := h c (by simp)
    rw [List.cons_append]
    show stripRun (c :: (rest ++ r)) StripMode.tag = _
    rw [show stripRun (c :: (rest ++ r)) StripMode.tag =
      (if c = '>' then stripRun (rest ++ r) StripMode.out
       else if c = '"' then stripRun (rest ++ r) StripMode.dq
       else if c = '\'' then stripRun (rest ++ r) StripMode.sq
       else stripRun (rest ++ r) StripMode.tag) from rfl]
    rw [if_neg hc.1, if_neg hc.2.1, if_neg hc.2.2]
    exact ih r (fun d hd => h d (by simp [hd]))

theorem stripRun_dq_skip : ∀ (v r : List Char), (∀ c ∈ v, ¬(c = '"')) →
    stripRun (v ++ r) StripMode.dq = stripRun r StripMode.dq := by
  intro v
  induction v with
  | nil => intro r h; rfl
  | cons c rest ih =>
    intro r h
    rw [List.cons_append]
    show stripRun (c :: (rest ++ r)) StripMode.dq = _
    rw [show stripRun (c :: (rest ++ r)) StripMode.dq =
      (if c = '"' then stripRun (rest ++ r) StripMode.tag
       else stripRun (rest ++ r) StripMode.dq) from rfl]
    rw [if_neg (h c (by simp))]
    exact ih r (fun d hd => h d (by simp [hd]))

theorem stripRun_sq_skip : ∀ (v r : List Char), (∀ c ∈ v, ¬(c = '\'')) →
    stripRun (v ++ r) StripMode.sq = stripRun r StripMode.sq := by
  intro v
  induction v with
  | nil => intro r h; rfl
  | cons c rest ih =>
    intro r h
    rw [List.cons_append]
    show stripRun (c :: (rest ++ r)) StripMode.sq = _
    rw [show stripRun (c :: (rest ++ r)) StripMode.sq =
      (if c = '\'' then stripRun (rest ++ r) StripMode.tag
       else stripRun (rest ++ r) StripMode.sq) from rfl]
    rw [if_neg (h c (by simp))]
    exact ih r (fun d hd => h d (by simp [hd]))

theorem stripRun_out_text : ∀ (s r : List Char), (∀ c ∈ s, isTextChar c = true) →
    stripRun (s ++ r) StripMode.out = s ++ stripRun r StripMode.out := by
  intro s
  induction s with
  | nil => intro r h; rfl
  | cons c rest ih =>
    intro r h
    have hc : ¬(c = '<') := by
      have := h c (by simp)
      intro he
      subst he
      exact absurd this (by decide)
    rw [List.cons_append]
    show stripRun (c :: (rest ++ r)) StripMode.out = _
    rw [show stripRun (c :: (rest ++ r)) StripMode.out =
      (if c = '<' then stripRun (rest ++ r) StripMode.tag
       else c :: stripRun (rest ++ r) StripMode.out) from rfl]
    rw [if_neg hc]
    rw [ih r (fun d hd => h d (by simp [hd]))]
    rfl

theorem stripRun_tag_attr (a r : List Char) (h : wfAttrB a = true) :
    stripRun (a ++ r) StripMode.tag = stripRun r StripMode.tag := by
  obtain ⟨k, q, v, rfl, hk, hq, hv⟩ := wfAttrB_decomp a h
  rw [List.append_assoc]
  rw [stripRun_tag_skip k _ (fun c hc => by
    obtain ⟨h1, h2, h3, _⟩ := isVarChar_ne c (hk c hc)
    exact ⟨h1, h2, h3⟩)]
  rw [List.cons_append]
  show stripRun ('=' :: (q :: (v ++ [q]) ++ r)) StripMode.tag = _
  rw [show stripRun ('=' :: (q :: (v ++ [q]) ++ r)) StripMode.tag =
    stripRun (q :: (v ++ [q]) ++ r) StripMode.tag from by rfl]
  rcases hq with rfl | rfl
  · rw [List.cons_append]
    rw [show stripRun ('"' :: ((v ++ ['"']) ++ r)) StripMode.tag =
      stripRun ((v ++ ['"']) ++ r) StripMode.dq from rfl]
    rw [List.append_assoc]
    rw [stripRun_dq_skip v _ hv]
    rfl
  · rw [List.cons_append]
    rw [show stripRun ('\'' :: ((v ++ ['\'']) ++ r)) StripMode.tag =
      stripRun ((v ++ ['\'']) ++ r) StripMode.sq from rfl]
    rw [List.append_assoc]
    rw [stripRun_sq_skip v _ hv]
    rfl

theorem stripRun_tag_attrs : ∀ (a : List (List Char)) (r : List Char),
    (∀ x ∈ a, wfAttrB x = true) →
    stripRun ((a.map (fun x => ' ' :: x)).flatten ++ r) StripMode.tag
      = stripRun r StripMode.tag := by
  intro a
  induction a with
  | nil => intro r h; rfl
  | cons x xs ih =>
    intro r h
    simp only [List.map_cons, List.flatten_cons, List.append_assoc, List.cons_append]
    show stripRun (' ' :: (x ++ ((xs.map (fun x => ' ' :: x)).flatten ++ r))) StripMode.tag = _
    rw [show stripRun (' ' :: (x ++ ((xs.map (fun x => ' ' :: x)).flatten ++ r))) StripMode.tag =
      stripRun (x ++ ((xs.map (fun x => ' ' :: x)).flatten ++ r)) StripMode.tag from rfl]
    rw [stripRun_tag_attr x _ (h x (by simp))]
    exact ih r (fun y hy => h y (by simp [hy]))

theorem stripRun_open (n : List Char) (a : List (List Char)) (r : List Char)
    (hn : n ∈ TAG_NAMES) (ha : ∀ x ∈ a, wfAttrB x = true) :
    stripRun (token_open_str n a ++ r) StripMode.out = stripRun r StripMode.out := by
  unfold token_open_str
  rw [List.cons_append]
  rw [show stripRun ('<' :: ((n ++ (a.map (fun x => ' ' :: x)).flatten ++ ['>']) ++ r))
      StripMode.out
    = stripRun ((n ++ (a.map (fun x => ' ' :: x)).flatten ++ ['>']) ++ r) StripMode.tag from rfl]
  rw [List.append_assoc, List.append_assoc]
  rw [stripRun_tag_skip n _ (names_chars n hn)]
  rw [stripRun_tag_attrs a _ ha]
  rfl

theorem stripRun_close (n : List Char) (r : List Char) (hn : n ∈ TAG_NAMES) :
    stripRun (token_close_str n ++ r) StripMode.out = stripRun r StripMode.out := by
  unfold token_close_str
  rw [List.cons_append, List.cons_append]
  rw [show stripRun ('<' :: ('/' :: ((n ++ ['>']) ++ r))) StripMode.out
    = stripRun ((n ++ ['>']) ++ r) StripMode.tag from rfl]
  rw [List.append_assoc]
  rw [stripRun_tag_skip n _ (names_chars n hn)]
  rfl

/-- Stripping markup from rendered well-formed tokens yields exactly
their visible text. -/
theorem stripRun_token_str : ∀ ts : List Tok, wfListB ts = true → ∀ r : List Char,
    stripRun (token_str ts ++ r) StripMode.out = stripToks ts ++ stripRun r StripMode.out := by
  have H : ∀ ts : List Tok, wfListB ts = true → ∀ r : List Char,
      stripRun (token_str ts ++ r) StripMode.out = stripToks ts ++ stripRun r StripMode.out :=
    token_str.induct
      (fun t => wfTokB t = true → ∀ r : List Char,
        stripRun (token_str1 t ++ r) StripMode.out = stripToks1 t ++ stripRun r StripMode.out)
      (fun ts => wfListB ts = true → ∀ r : List Char,
        stripRun (token_str ts ++ r) StripMode.out = stripToks ts ++ stripRun r StripMode.out)
      (fun s => by
        intro hw r
        simp only [wfTokB, Bool.and_eq_true] at hw
        exact stripRun_out_text s r (fun c hc => List.all_eq_true.mp hw.2 c hc))
      (fun n a c ih => by
        intro hw r
        simp only [wfTokB, Bool.and_eq_true, decide_eq_true_eq] at hw
        obtain ⟨⟨hn, ha⟩, hc⟩ := hw
        show stripRun ((token_open_str n a ++ token_str c ++ token_close_str n) ++ r)
          StripMode.out = stripToks c ++ stripRun r StripMode.out
        rw [List.append_assoc, List.append_assoc]
        rw [stripRun_open n a _ hn (fun x hx => List.all_eq_true.mp ha x hx)]
        rw [ih hc]
        rw [stripRun_close n r hn])
      (fun _ => by intro r; rfl)
      (fun t ts ih1 ih2 => by
        intro hw r
        simp only [wfListB, Bool.and_eq_true] at hw
        show stripRun ((token_str1 t ++ token_str ts) ++ r) StripMode.out
          = (stripToks1 t ++ stripToks ts) ++ stripRun r StripMode.out
        rw [List.append_assoc, ih1 hw.1, ih2 hw.2, List.append_assoc])
  exact H

theorem stripRun_openAll : ∀ (ins : Inside), wfInsB ins = true → ∀ r : List Char,
    stripRun (openAll ins ++ r) StripMode.out = stripRun r StripMode.out := by
  intro ins
  induction ins with
  | nil => intro h r; rfl
  | cons p ps ih =>
    intro h r
    simp only [wfInsB, List.all_cons, Bool.and_eq_true, decide_eq_true_eq] at h
    obtain ⟨⟨hn, ha⟩, hps⟩ := h
    unfold openAll
    simp only [List.map_cons, List.flatten_cons, List.append_assoc]
    rw [stripRun_open p.1 p.2 _ hn (fun x hx => List.all_eq_true.mp ha x hx)]
    exact ih hps r

theorem stripRun_closeAll : ∀ (ins : Inside), wfInsB ins = true → ∀ r : List Char,
    stripRun (closeAll ins ++ r) StripMode.out = stripRun r StripMode.out := by
  intro ins
  induction ins with
  | nil => intro h r; rfl
  | cons p ps ih =>
    intro h r
    simp only [wfInsB, List.all_cons, Bool.and_eq_true, decide_eq_true_eq] at h
    obtain ⟨⟨hn, _⟩, hps⟩ := h
    unfold closeAll
    simp only [List.map_cons, List.flatten_cons, List.append_assoc]
    rw [stripRun_close p.1 _ hn]
    exact ih hps r

/-- The visible text of one whole well-formed chunk string. -/
theorem stripMarkup_chunk (ins : Inside) (ts : List Tok)
    (hins : wfInsB ins = true) (hts : wfListB ts = true) :
    stripMarkup (openAll ins ++ token_str ts ++ closeAll ins) = stripToks ts := by
  unfold stripMarkup
  rw [List.append_assoc]
  rw [stripRun_openAll ins hins]
  rw [stripRun_token_str ts hts]
  rw [show closeAll ins = closeAll ins ++ [] from by simp]
  rw [stripRun_closeAll ins hins]
  simp [stripRun]

theorem wfListB_append (l1 l2 : List Tok) :
    wfListB (l1 ++ l2) = (wfListB l1 && wfListB l2) := by
  induction l1 with
  | nil => simp [wfListB]
  | cons t ts ih => simp [wfListB, ih, Bool.and_assoc]

theorem wfListB_take (l : List Tok) (k : Nat) (h : wfListB l = true) :
    wfListB (l.take k) = true := by
  have := wfListB_append (l.take k) (l.drop k)
  rw [List.take_append_drop] at this
  rw [h] at this
  have h2 := this.symm
  rw [Bool.and_eq_true] at h2
  exact h2.1

theorem wfListB_drop (l : List Tok) (k : Nat) (h : wfListB l = true) :
    wfListB (l.drop k) = true := by
  have := wfListB_append (l.take k) (l.drop k)
  rw [List.take_append_drop] at this
  rw [h] at this
  have h2 := this.symm
  rw [Bool.and_eq_true] at h2
  exact h2.2

theorem wfListB_get {l : List Tok} {k : Nat} {t : Tok} (hg : l.get? k = some t)
    (h : wfListB l = true) : wfTokB t = true := by
  have hd := toks_decomp hg
  rw [hd, wfListB_append] at h
  simp only [Bool.and_eq_true, wfListB] at h
  exact h.2.1

theorem wfText_sub {s s2 : List Char} (hsub : ∀ c ∈ s2, c ∈ s)
    (h : (!s.isEmpty && s.all isTextChar) = true) (hne : s2 ≠ []) :
    (!s2.isEmpty && s2.all isTextChar) = true := by
  simp only [Bool.and_eq_true, List.all_eq_true] at h ⊢
  refine ⟨by simpa using hne, fun c hc => h.2 c (hsub c hc)⟩

/-- Well-formedness survives a cut. -/
theorem wfListB_leftOfCut {toks : List Tok} {s : List Char} {ti ci : Nat}
    (hg : toks.get? ti = some (.text s)) (hci : ci < s.length)
    (h : wfListB toks = true) : wfListB (leftOfCut toks s ti ci) = true := by
  unfold leftOfCut
  rw [wfListB_append]
  rw [wfListB_take toks ti h]
  simp only [Bool.true_and, wfListB, Bool.and_eq_true]
  refine ⟨?_, trivial⟩
  have hw := wfListB_get hg h
  simp only [wfTokB] at hw ⊢
  refine wfText_sub (fun c hc => List.mem_of_mem_take hc) hw ?_
  intro h2
  have h3 := congrArg List.length h2
  rw [List.length_take] at h3
  simp only [List.length_nil] at h3
  omega

theorem wfListB_rightOfCut {toks : List Tok} {s : List Char} {ti ci : Nat}
    (hg : toks.get? ti = some (.text s))
    (h : wfListB toks = true) : wfListB (rightOfCut toks s ti ci) = true := by
  unfold rightOfCut
  rw [wfListB_append]
  rw [wfListB_drop toks (ti + 1) h]
  simp only [Bool.and_true]
  by_cases hd : (s.drop (ci + 1)).isEmpty
  · rw [if_pos hd]; rfl
  · rw [if_neg hd]
    simp only [wfListB, Bool.and_eq_true]
    refine ⟨?_, trivial⟩
    have hw := wfListB_get hg h
    simp only [wfTokB] at hw ⊢
    refine wfText_sub (fun c hc => List.mem_of_mem_drop hc) hw ?_
    simpa using hd

theorem stripToks_append (l1 l2 : List Tok) :
    stripToks (l1 ++ l2) = stripToks l1 ++ stripToks l2 := by
  induction l1 with
  | nil => simp [stripToks]
  | cons t ts ih => simp [stripToks, ih]

/-- The visible text is preserved across a cut: left and right together
carry exactly the original text. -/
theorem stripToks_cut {toks : List Tok} {s : List Char} {ti ci : Nat}
    (hg : toks.get? ti = some (Tok.text s)) :
    stripToks (leftOfCut toks s ti ci) ++ stripToks (rightOfCut toks s ti ci)
      = stripToks toks := by
  have hs : s = s.take (ci + 1) ++ s.drop (ci + 1) := (List.take_append_drop _ s).symm
  conv_rhs => rw [toks_decomp hg]
  rw [stripToks_append]
  unfold leftOfCut rightOfCut
  rw [stripToks_append, stripToks_append]
  simp only [stripToks, stripToks1, List.append_nil, List.nil_append, List.append_assoc]
  by_cases hd : (s.drop (ci + 1)).isEmpty
  · rw [if_pos hd]
    rw [List.isEmpty_iff] at hd
    simp only [stripToks, List.nil_append]
    rw [hd] at hs
    simp at hs
    rw [List.take_of_length_le hs]
  · rw [if_neg hd]
    simp only [stripToks, stripToks1, List.append_assoc, List.append_nil]
    congr 1
    rw [← List.append_assoc, List.take_append_drop]

theorem takeWhile_prefix_break (p : Char → Bool) : ∀ (k : List Char) (d : Char) (t : List Char),
    (∀ c ∈ k, p c = true) → p d = false → (k ++ d :: t).takeWhile p = k := by
  intro k
  induction k with
  | nil => intro d t _ hd; simp [List.takeWhile_cons, hd]
  | cons c rest ih =>
    intro d t hk hd
    rw [List.cons_append, List.takeWhile_cons, if_pos (hk c (by simp))]
    rw [ih d t (fun x hx => hk x (by simp [hx])) hd]

theorem matchName_fold_mem (cs : List Char) : ∀ (l : List (List Char)) (acc : Option (List Char))
    (m : List Char),
    l.foldl (fun acc n =>
      if n.isPrefixOf cs && acc.elim true (fun m2 => decide (m2.length < n.length)) then some n
      else acc) acc = some m → m ∈ l ∨ acc = some m := by
  intro l
  induction l with
  | nil => intro acc m h; right; exact h
  | cons n l ih =>
    intro acc m h
    rw [List.foldl_cons] at h
    rcases ih _ m h with h2 | h2
    · left; exact List.mem_cons_of_mem n h2
    · by_cases hc : (n.isPrefixOf cs && acc.elim true (fun m2 => decide (m2.length < n.length))) = true
      · rw [if_pos hc] at h2
        left
        simp at h2
        simp [h2]
      · rw [if_neg hc] at h2
        right
        exact h2

theorem matchName_mem {cs : List Char} {n : List Char} (h : matchName cs = some n) :
    n ∈ TAG_NAMES := by
  unfold matchName at h
  rcases matchName_fold_mem cs TAG_NAMES none n h with h2 | h2
  · exact h2
  · simp at h2

theorem parseAttr1_wf {cs : List Char} {attr : List Char} {rest : List Char}
    (h : parseAttr1 cs = some (attr, rest)) : wfAttrB attr = true := by
  unfold parseAttr1 at h
  split at h
  · simp at h
  · next hk =>
    split at h
    · next e q vrest hd =>
      split at h
      · next heq =>
        split at h
        · next d rest2 hv =>
          simp only [Option.some.injEq, Prod.mk.injEq] at h
          obtain ⟨ha, _⟩ := h
          simp only [Bool.and_eq_true, decide_eq_true_eq] at heq
          obtain ⟨he, hq⟩ := heq
          rw [← ha]
          unfold wfAttrB
          have hkp : ∀ c ∈ cs.takeWhile isVarChar, isVarChar c = true :=
            fun c hc => List.mem_takeWhile_imp hc
          have hqe : isVarChar '=' = false := by decide
          have htw : ((cs.takeWhile isVarChar ++ '=' :: q :: (vrest.takeWhile (fun d => !(d = q)) ++ [q])).takeWhile isVarChar)
              = cs.takeWhile isVarChar :=
            takeWhile_prefix_break isVarChar _ '=' _ hkp hqe
          rw [Bool.and_eq_true]
          constructor
          · rw [htw]
            simpa using hk
          · rw [htw, List.drop_left]
            simp only [Bool.and_eq_true, decide_eq_true_eq]
            refine ⟨⟨⟨⟨trivial, by simpa using hq⟩, by simp⟩, ?_⟩, ?_⟩
            · rw [List.getLast?_concat]
            · rw [List.dropLast_concat]
              rw [List.all_eq_true]
              intro d hd2
              have := List.mem_takeWhile_imp hd2
              simpa using this
        · exact absurd h (by simp)
      · exact absurd h (by simp)
    · exact absurd h (by simp)

theorem parseAttrsF_wf : ∀ (fuel : Nat) (cs : List Char) (attrs : List (List Char))
    (rest : List Char), parseAttrsF fuel cs = some (attrs, rest) →
    ∀ a ∈ attrs, wfAttrB a = true := by
  intro fuel
  induction fuel with
  | zero => intro cs attrs rest h; simp [parseAttrsF] at h
  | succ f ih =>
    intro cs attrs rest h
    unfold parseAttrsF at h
    split at h
    · simp at h
      rw [h.1]
      simp
    · split at h
      · split at h
        · simp at h
        · next attr rest2 hp1 =>
          split at h
          · simp at h
          · next attrs2 restF hrec =>
            simp only [Option.some.injEq, Prod.mk.injEq] at h
            obtain ⟨ha, _⟩ := h
            rw [← ha]
            intro a hamem
            rcases List.mem_cons.mp hamem with h3 | h3
            · rw [h3]; exact parseAttr1_wf hp1
            · exact ih _ _ _ hrec a h3
      · simp at h
        rw [h.1]
        simp

theorem parseContentF_nil (fuel : Nat) : parseContentF (fuel+1) [] = some ([], []) := rfl

theorem parseContentF_cons (fuel : Nat) (c : Char) (rest : List Char) :
    parseContentF (fuel+1) (c :: rest) =
      (if c = '<' then
        if rest.head? = some '/' then some ([], c :: rest)
        else
          match matchName rest with
          | none => none
          | some n =>
            match parseAttrsF ((rest.drop n.length).length + 1) (rest.drop n.length) with
            | none => none
            | some (attrs, rest2) =>
              match rest2 with
              | g :: rest3 =>
                if g = '>' then
                  match parseContentF fuel rest3 with
                  | none => none
                  | some (inner, rest4) =>
                    match rest4 with
                    | c4 :: c5 :: rest5 =>
                      if c4 = '<' && c5 = '/' then
                        match matchName rest5 with
                        | none => none
                        | some n2 =>
                          if n2 = n then
                            match rest5.drop n2.length with
                            | g2 :: rest6 =>
                              if g2 = '>' then
                                match parseContentF fuel rest6 with
                                | none => none
                                | some (ts, restF) => some (Tok.tag n attrs inner :: ts, restF)
                              else none
                            | _ => none
                          else none
                      else none
                    | _ => none
                else none
              | _ => none
      else if c = '>' then none
      else
        match parseContentF fuel ((c :: rest).dropWhile isTextChar) with
        | none => none
        | some (ts, restF) => some (Tok.text ((c :: rest).takeWhile isTextChar) :: ts, restF)) := rfl

theorem dropWhile_head_not (p : Char → Bool) : ∀ (l : List Char) (c : Char) (t : List Char),
    l.dropWhile p = c :: t → p c = false := by
  intro l
  induction l with
  | nil => intro c t h; simp at h
  | cons d rest ih =>
    intro c t h
    rw [List.dropWhile_cons] at h
    by_cases hd : p d
    · rw [if_pos hd] at h
      exact ih c t h
    · rw [if_neg hd] at h
      simp at h
      rw [← h.1]
      simpa using hd

theorem parseContentF_lt_shape (f : Nat) (cs : List Char) (ts : List Tok) (rest : List Char)
    (h : parseContentF (f+1) ('<' :: cs) = some (ts, rest)) :
    headIsText ts = false := by
  rw [parseContentF_cons] at h
  rw [if_pos rfl] at h
  repeat' (first | (split at h) | (simp only [Option.some.injEq, Prod.mk.injEq] at h))
  all_goals try (obtain ⟨h1, h2⟩ := h; subst h1)
  all_goals simp_all [headIsText]

theorem parseContentF_head_text : ∀ (fuel : Nat) (cs : List Char) (ts : List Tok)
    (rest : List Char), parseContentF fuel cs = some (ts, rest) → headIsText ts = true →
    ∃ c cs2, cs = c :: cs2 ∧ isTextChar c = true := by
  intro fuel
  induction fuel with
  | zero => intro cs ts rest h; simp [parseContentF] at h
  | succ f _ =>
    intro cs ts rest h hh
    cases cs with
    | nil =>
      rw [parseContentF_nil] at h
      simp at h
      rw [h.1] at hh
      simp [headIsText] at hh
    | cons c cs2 =>
      by_cases hc : c = '<'
      · subst hc
        rw [parseContentF_lt_shape f cs2 ts rest h] at hh
        simp at hh
      · rw [parseContentF_cons, if_neg hc] at h
        by_cases hc2 : c = '>'
        · rw [if_pos hc2] at h
          simp at h
        · rw [if_neg hc2] at h
          refine ⟨c, cs2, rfl, ?_⟩
          simp [isTextChar, hc, hc2]

/-- Every forest the parser produces is structurally well-formed and has
maximal text runs. -/
theorem parseContentF_wf : ∀ (fuel : Nat) (cs : List Char) (ts : List Tok) (rest : List Char),
    parseContentF fuel cs = some (ts, rest) → wfListB ts = true ∧ sepList ts = true := by
  intro fuel
  induction fuel with
  | zero => intro cs ts rest h; simp [parseContentF] at h
  | succ f ih =>
    intro cs ts rest h
    cases cs with
    | nil =>
      rw [parseContentF_nil] at h
      simp at h
      rw [h.1]
      exact ⟨rfl, rfl⟩
    | cons c cs2 =>
      rw [parseContentF_cons] at h
      by_cases hc : c = '<'
      · rw [if_pos hc] at h
        by_cases hsl : cs2.head? = some '/'
        · rw [if_pos hsl] at h
          simp at h
          rw [h.1]
          exact ⟨rfl, rfl⟩
        · rw [if_neg hsl] at h
          split at h
          · simp at h
          · next n hm =>
            split at h
            · simp at h
            · next attrs rest2 hpa =>
              split at h
              · next g rest3 =>
                split at h
                · next hg =>
                  split at h
                  · simp at h
                  · next inner rest4 hpc1 =>
                    split at h
                    · next c4 c5 rest5 =>
                      split at h
                      · next hcl =>
                        split at h
                        · simp at h
                        · next n2 hm2 =>
                          split at h
                          · next hn2 =>
                            split at h
                            · next g2 rest6 hdrop =>
                              split at h
                              · next hg2 =>
                                split at h
                                · simp at h
                                · next ts2 restF hpc2 =>
                                  simp only [Option.some.injEq, Prod.mk.injEq] at h
                                  obtain ⟨h1, _⟩ := h
                                  rw [← h1]
                                  obtain ⟨hw1, hs1⟩ := ih _ _ _ hpc1
                                  obtain ⟨hw2, hs2⟩ := ih _ _ _ hpc2
                                  have hna := parseAttrsF_wf _ _ _ _ hpa
                                  have hnm := matchName_mem hm
                                  constructor
                                  · simp [wfListB, wfTokB, hw1, hw2, hnm]
                                    exact hna
                                  · simp [sepList, sepTok, isTextTok, hs1, hs2]
                              · simp at h
                            · simp at h
                          · simp at h
                      · simp at h
                    · simp at h
                · simp at h
              · simp at h
      · rw [if_neg hc] at h
        by_cases hc2 : c = '>'
        · rw [if_pos hc2] at h
          simp at h
        · rw [if_neg hc2] at h
          split at h
          · simp at h
          · next ts2 restF hpc =>
            simp only [Option.some.injEq, Prod.mk.injEq] at h
            obtain ⟨h1, _⟩ := h
            rw [← h1]
            obtain ⟨hw2, hs2⟩ := ih _ _ _ hpc
            have hct : isTextChar c = true := by simp [isTextChar, hc, hc2]
            have hnt : headIsText ts2 = false := by
              cases hht : headIsText ts2 with
              | false => rfl
              | true =>
                obtain ⟨d, cs3, hdd, hdt⟩ := parseContentF_head_text f _ _ _ hpc hht
                have h5 := dropWhile_head_not isTextChar _ d cs3 hdd
                rw [hdt] at h5
                simp at h5
            constructor
            · simp only [wfListB, Bool.and_eq_true]
              refine ⟨?_, hw2⟩
              simp only [wfTokB, Bool.and_eq_true]
              constructor
              · rw [List.takeWhile_cons, if_pos hct]
                simp
              · rw [List.all_eq_true]
                exact fun d hd => List.mem_takeWhile_imp hd
            · simp [sepList, sepTok, isTextTok, hs2, hnt]

/-- Every forest `parse` produces is well-formed with maximal text runs. -/
theorem parse_wf {s : List Char} {ts : List Tok} (h : parse s = some ts) :
    wfListB ts = true ∧ sepList ts = true := by
  unfold parse at h
  split at h
  · next ts2 h2 =>
    simp at h
    rw [← h]
    exact parseContentF_wf _ _ _ _ h2
  · simp at h

/-! ## C3: content preservation -/
theorem wfInsB_push (ins : Inside) (n : List Char) (a : List (List Char))
    (hins : wfInsB ins = true) (hn : n ∈ TAG_NAMES) (ha : a.all wfAttrB = true) :
    wfInsB (ins ++ [(n, a)]) = true := by
  unfold wfInsB at *
  rw [List.all_append, hins]
  simp [hn, ha]

/-- Content preservation for the markup segmenter: the visible text of
the produced chunks, concatenated in order, is the visible text of the
input forest. -/
theorem chunkHtmlF_strip : ∀ (fuel maxLen : Nat) (toks : List Tok) (ins : Inside)
    (cs : List (List Char)), wfListB toks = true → wfInsB ins = true →
    chunkHtmlF fuel maxLen toks ins = some (.ok cs) →
    (cs.map stripMarkup).flatten = stripToks toks := by
  intro fuel
  induction fuel with
  | zero => intro m toks ins cs _ _ h; simp [chunkHtmlF] at h
  | succ f ih =>
    intro m toks ins cs hwf hins h
    cases toks with
    | nil =>
      rw [chunkHtmlF_nil] at h
      simp at h
      rw [h]
      rfl
    | cons t0 rest =>
      rw [chunkHtmlF_cons] at h
      split at h
      · simp at h
        rw [← h]
        simp only [List.map_cons, List.map_nil, List.flatten_cons, List.flatten_nil,
          List.append_nil]
        rw [← List.append_assoc]
        exact stripMarkup_chunk ins (t0 :: rest) hins hwf
      · cases hbc : bestCutImpl m ((openAll ins).length + (closeAll ins).length) (t0 :: rest) with
        | some v =>
          obtain ⟨ti, ci⟩ := v
          rw [hbc] at h
          have hbs := hbc
          rw [bestCutImpl_eq_spec] at hbs
          obtain ⟨s, hg, hci, hval⟩ := specBestCut_valid _ _ _ _ _ hbs
          simp only [chunkCutStep, hg] at h
          cases h2 : chunkHtmlF f m (rightOfCut (t0 :: rest) s ti ci) ins with
          | none => rw [h2] at h; simp [consRes] at h
          | some r =>
            rw [h2] at h
            cases r with
            | error e => simp [consRes] at h
            | ok cs2 =>
              simp [consRes] at h
              rw [← h]
              simp only [List.map_cons, List.flatten_cons]
              have hleft := wfListB_leftOfCut hg hci hwf
              have hright := @wfListB_rightOfCut (t0 :: rest) s ti ci hg hwf
              have e1 : stripMarkup (openAll ins ++ (token_str (leftOfCut (t0 :: rest) s ti ci)
                  ++ closeAll ins)) = stripToks (leftOfCut (t0 :: rest) s ti ci) := by
                rw [← List.append_assoc]
                exact stripMarkup_chunk ins _ hins hleft
              rw [e1]
              rw [ih m _ ins cs2 hright hins h2]
              exact stripToks_cut hg
        | none =>
          rw [hbc] at h
          cases t0 with
          | text s => simp [chunkCutStep] at h
          | tag n a cnt =>
            simp only [chunkCutStep] at h
            cases h2 : chunkHtmlF f m cnt (ins ++ [(n, a)]) with
            | none => rw [h2] at h; simp [seqRes] at h
            | some r1 =>
              rw [h2] at h
              cases r1 with
              | error e => simp [seqRes] at h
              | ok l =>
                cases h3 : chunkHtmlF f m rest ins with
                | none => rw [h3] at h; simp [seqRes] at h
                | some r2 =>
                  rw [h3] at h
                  cases r2 with
                  | error e => simp [seqRes] at h
                  | ok rr =>
                    simp [seqRes] at h
                    rw [← h]
                    simp only [wfListB, wfTokB, Bool.and_eq_true, decide_eq_true_eq] at hwf
                    obtain ⟨⟨⟨hn, ha⟩, hcnt⟩, hrest⟩ := hwf
                    have hins2 := wfInsB_push ins n a hins hn ha
                    rw [List.map_append, List.flatten_append]
                    rw [ih m cnt _ l hcnt hins2 h2]
                    rw [ih m rest ins rr hrest hins h3]
                    simp [stripToks, stripToks1]

/-- C3, counterexample in plain mode: the newline separators at chunk
boundaries are dropped, so the concatenated chunks differ from the
original visible text. -/
theorem C3_plain_mode_counterexample :
    chunk 5 "line1\n\nline2".data [] = .ok ["line1".data, "line2".data]
    ∧ (["line1".data, "line2".data].map stripMarkup).flatten ≠ stripMarkup "line1\n\nline2".data := by
  constructor
  · exact check_assert_14
  · decide

/-- C3 (amended).  In markup mode content is preserved: for every text,
budget and parse result on which the markup segmenter succeeds, the
markup-stripped visible text of the chunks, concatenated in order, is
exactly the visible text of the parsed input.  (In plain mode the claim
fails: `chunk_by_newlines` drops the newline separator at each chunk
boundary and strips leading whitespace, as the counterexample shows.) -/
theorem C3_content_preservation (maxLen : Nat) (text : List Char) (toks : List Tok)
    (cs : List (List Char)) (hp : parse text = some toks)
    (h : chunk_html maxLen toks [] = .ok cs) :
    (cs.map stripMarkup).flatten = stripToks toks := by
  obtain ⟨hwf, _⟩ := parse_wf hp
  unfold chunk_html at h
  cases h2 : chunkHtmlF (token_len toks + 1) maxLen toks [] with
  | none => rw [h2] at h; simp [Option.getD] at h
  | some r =>
    rw [h2] at h
    simp [Option.getD] at h
    rw [h] at h2
    exact chunkHtmlF_strip _ _ _ _ _ hwf (by rfl) h2

/-- Witness for C3 on a concrete markup-mode run. -/
theorem C3_content_preservation_witness :
    parse "hi<b>there</b>world".data
      = some [Tok.text "hi".data, Tok.tag "b".data [] [Tok.text "there".data],
              Tok.text "world".data]
    ∧ ((["hi".data, "<b>the</b>".data, "<b>re</b>".data, "world".data].map stripMarkup).flatten
      = stripToks [Tok.text "hi".data, Tok.tag "b".data [] [Tok.text "there".data],
              Tok.text "world".data]) := by
  constructor
  · rfl
  · refine C3_content_preservation 10 "hi<b>there</b>world".data _ _ rfl ?_
    rfl

theorem isVarChar_not_ws (c : Char) (h : isVarChar c = true) : isWSChar c = false := by
  cases hw : isWSChar c with
  | false => rfl
  | true =>
    exfalso
    simp only [isWSChar, Bool.or_eq_true, decide_eq_true_eq] at hw
    rcases hw with ((((rfl | rfl) | rfl) | rfl) | rfl) | rfl <;> exact absurd h (by decide)

theorem names_head : ∀ n ∈ TAG_NAMES, n.head? ≠ some '/' ∧ n ≠ [] := by decide

theorem matchName_render : ∀ n ∈ TAG_NAMES, ∀ (c : Char), (c = ' ' ∨ c = '>') →
    ∀ r : List Char, matchName (n ++ c :: r) = some n := by
  intro n hn c hc r
  fin_cases hn <;> rcases hc with rfl | rfl <;> rfl

theorem dropWhile_prefix_break (p : Char → Bool) : ∀ (s : List Char) (d : Char) (t : List Char),
    (∀ c ∈ s, p c = true) → p d = false → (s ++ d :: t).dropWhile p = d :: t := by
  intro s
  induction s with
  | nil => intro d t _ hd; simp [List.dropWhile_cons, hd]
  | cons c rest ih =>
    intro d t hs hd
    rw [List.cons_append, List.dropWhile_cons, if_pos (hs c (by simp))]
    exact ih d t (fun x hx => hs x (by simp [hx])) hd

theorem parseAttrsF_cons (fuel : Nat) (c : Char) (t : List Char) :
    parseAttrsF (fuel + 1) (c :: t) =
      (if isWSChar c then
        match parseAttr1 ((c :: t).dropWhile isWSChar) with
        | none => none
        | some (attr, rest2) =>
          match parseAttrsF fuel rest2 with
          | none => none
          | some (attrs, restF) => some (attr :: attrs, restF)
      else some ([], c :: t)) := rfl

/-- Re-parsing a rendered well-formed attribute from the front of the
input gives back exactly that attribute string. -/
theorem parseAttr1_render (x : List Char) (hx : wfAttrB x = true) (r : List Char) :
    parseAttr1 (x ++ r) = some (x, r) := by
  obtain ⟨k, q, v, rfl, hk, hq, hv⟩ := wfAttrB_decomp x hx
  unfold parseAttr1
  have hqe : isVarChar '=' = false := by decide
  have htw : ((k ++ '=' :: q :: (v ++ [q])) ++ r).takeWhile isVarChar = k := by
    rw [List.append_assoc]
    exact takeWhile_prefix_break isVarChar k '=' _ hk hqe
  rw [htw]
  have hkne : ¬(k.isEmpty = true) := by
    intro hke
    rw [List.isEmpty_iff] at hke
    subst hke
    simp only [List.nil_append] at hx
    exact absurd hx (by simp [wfAttrB, List.takeWhile_cons, hqe])
  rw [if_neg hkne]
  have hdrop : (((k ++ '=' :: q :: (v ++ [q])) ++ r)).drop k.length
      = '=' :: q :: ((v ++ [q]) ++ r) := by
    rw [List.append_assoc, List.drop_left]
    simp
  rw [hdrop]
  show (if (('=' : Char) = '=' && (q = '"' || q = '\'')) = true then
      match ((v ++ [q]) ++ r).drop (((v ++ [q]) ++ r).takeWhile (fun d => !(d = q))).length with
      | _ :: rest2 =>
        some (k ++ '=' :: q :: (((v ++ [q]) ++ r).takeWhile (fun d => !(d = q)) ++ [q]), rest2)
      | [] => none
    else none) = some (k ++ '=' :: q :: (v ++ [q]), r)
  have hqq : (('=' : Char) = '=' && (q = '"' || q = '\'')) = true := by
    rcases hq with rfl | rfl <;> decide
  rw [if_pos hqq]
  have hvtw : ((v ++ [q]) ++ r).takeWhile (fun d => !(d = q)) = v := by
    rw [List.append_assoc]
    rw [show ([q] : List Char) ++ r = q :: r from rfl]
    exact takeWhile_prefix_break _ v q r (fun c hc => by simpa using hv c hc) (by simp)
  rw [hvtw]
  have hvdrop : ((v ++ [q]) ++ r).drop v.length = q :: r := by
    rw [List.append_assoc, List.drop_left]
    rfl
  rw [hvdrop]

/-- Re-parsing a rendered well-formed attribute list (a single space
before each attribute, as the renderer emits) gives back the list. -/
theorem parseAttrsF_render : ∀ (a : List (List Char)), (∀ x ∈ a, wfAttrB x = true) →
    ∀ (tail : List Char) (fuel : Nat),
    ((a.map (fun y => ' ' :: y)).flatten ++ tail).length < fuel →
    (tail = [] ∨ ∃ d t2, tail = d :: t2 ∧ isWSChar d = false) →
    parseAttrsF fuel ((a.map (fun y => ' ' :: y)).flatten ++ tail) = some (a, tail) := by
  intro a
  induction a with
  | nil =>
    intro _ tail fuel hfuel htail
    obtain ⟨f, rfl⟩ : ∃ f, fuel = f + 1 := ⟨fuel - 1, by omega⟩
    simp only [List.map_nil, List.flatten_nil, List.nil_append]
    rcases htail with rfl | ⟨d, t2, rfl, hd⟩
    · rfl
    · rw [parseAttrsF_cons, if_neg (by simp [hd])]
  | cons x xs ih =>
    intro hwf tail fuel hfuel htail
    obtain ⟨f, rfl⟩ : ∃ f, fuel = f + 1 := ⟨fuel - 1, by omega⟩
    have hx := hwf x (by simp)
    have hxne : ∃ x0 xr, x = x0 :: xr ∧ isWSChar x0 = false := by
      obtain ⟨k, q, v, hxe, hk, hq, hv⟩ := wfAttrB_decomp x hx
      rcases hke : k with _ | ⟨k0, kr⟩
      · rw [hke] at hxe
        rw [hxe] at hx
        exact absurd hx (by simp [wfAttrB, List.takeWhile_cons, (by decide : isVarChar '=' = false)])
      · rw [hke] at hxe
        refine ⟨k0, kr ++ '=' :: q :: (v ++ [q]), by simpa using hxe, ?_⟩
        exact isVarChar_not_ws k0 (hk k0 (by simp [hke]))
    obtain ⟨x0, xr, rfl, hx0⟩ := hxne
    simp only [List.map_cons, List.flatten_cons, List.cons_append, List.append_assoc]
    rw [parseAttrsF_cons, if_pos (by decide : isWSChar ' ' = true)]
    have hdw : (' ' :: x0 :: (xr ++ ((xs.map (fun y => ' ' :: y)).flatten ++ tail))).dropWhile
        isWSChar = (x0 :: xr) ++ ((xs.map (fun y => ' ' :: y)).flatten ++ tail) := by
      rw [List.dropWhile_cons, if_pos (by decide), List.dropWhile_cons, if_neg (by simp [hx0])]
      rfl
    rw [hdw, parseAttr1_render (x0 :: xr) hx ((xs.map (fun y => ' ' :: y)).flatten ++ tail)]
    show (match parseAttrsF f ((xs.map (fun y => ' ' :: y)).flatten ++ tail) with
      | none => none
      | some (attrs, restF) => some ((x0 :: xr) :: attrs, restF)) = some ((x0 :: xr) :: xs, tail)
    rw [ih (fun y hy => hwf y (by simp [hy])) tail f (by
      simp only [List.map_cons, List.flatten_cons, List.length_append, List.length_cons] at hfuel ⊢
      omega) htail]

theorem takeWhile_all (p : Char → Bool) : ∀ s : List Char, (∀ c ∈ s, p c = true) →
    s.takeWhile p = s := by
  intro s
  induction s with
  | nil => intro _; rfl
  | cons c t ih =>
    intro h
    rw [List.takeWhile_cons, if_pos (h c (by simp)), ih (fun x hx => h x (by simp [hx]))]

theorem dropWhile_all (p : Char → Bool) : ∀ s : List Char, (∀ c ∈ s, p c = true) →
    s.dropWhile p = [] := by
  intro s
  induction s with
  | nil => intro _; rfl
  | cons c t ih =>
    intro h
    rw [List.dropWhile_cons, if_pos (h c (by simp))]
    exact ih (fun x hx => h x (by simp [hx]))

/-- One `tag` production step of the parser, with each sub-parse's result
supplied as a hypothesis. -/
theorem parseContentF_tag_step (f : Nat) (n : List Char) (a : List (List Char))
    (inner ts2 : List Tok) (R W Y Z rst : List Char)
    (hh : ¬(R.head? = some '/'))
    (h1 : matchName R = some n)
    (hd1 : R.drop n.length = W)
    (h2 : parseAttrsF (W.length + 1) W = some (a, '>' :: Y))
    (h3 : parseContentF f Y = some (inner, '<' :: '/' :: (n ++ '>' :: Z)))
    (h4 : matchName (n ++ '>' :: Z) = some n)
    (h5 : parseContentF f Z = some (ts2, rst)) :
    parseContentF (f + 1) ('<' :: R) = some (Tok.tag n a inner :: ts2, rst) := by
  rw [parseContentF_cons, if_pos rfl, if_neg hh, h1]
  show (match parseAttrsF ((R.drop n.length).length + 1) (R.drop n.length) with
    | none => none
    | some (attrs, rest2) =>
      match rest2 with
      | g :: rest3 =>
        if g = '>' then
          match parseContentF f rest3 with
          | none => none
          | some (inner2, rest4) =>
            match rest4 with
            | c4 :: c5 :: rest5 =>
              if c4 = '<' && c5 = '/' then
                match matchName rest5 with
                | none => none
                | some n2 =>
                  if n2 = n then
                    match rest5.drop n2.length with
                    | g2 :: rest6 =>
                      if g2 = '>' then
                        match parseContentF f rest6 with
                        | none => none
                        | some (ts, restF) => some (Tok.tag n attrs inner2 :: ts, restF)
                      else none
                    | _ => none
                  else none
              else none
            | _ => none
        else none
      | _ => none) = some (Tok.tag n a inner :: ts2, rst)
  rw [hd1, h2]
  show (if ('>' : Char) = '>' then
      match parseContentF f Y with
      | none => none
      | some (inner2, rest4) =>
        match rest4 with
        | c4 :: c5 :: rest5 =>
          if c4 = '<' && c5 = '/' then
            match matchName rest5 with
            | none => none
            | some n2 =>
              if n2 = n then
                match rest5.drop n2.length with
                | g2 :: rest6 =>
                  if g2 = '>' then
                    match parseContentF f rest6 with
                    | none => none
                    | some (ts, restF) => some (Tok.tag n a inner2 :: ts, restF)
                  else none
                | _ => none
              else none
          else none
        | _ => none
      else none) = some (Tok.tag n a inner :: ts2, rst)
  rw [if_pos rfl, h3]
  show (if (('<' : Char) = '<' && ('/' : Char) = '/') = true then
      match matchName (n ++ '>' :: Z) with
      | none => none
      | some n2 =>
        if n2 = n then
          match (n ++ '>' :: Z).drop n2.length with
          | g2 :: rest6 =>
            if g2 = '>' then
              match parseContentF f rest6 with
              | none => none
              | some (ts, restF) => some (Tok.tag n a inner :: ts, restF)
            else none
          | _ => none
        else none
      else none) = some (Tok.tag n a inner :: ts2, rst)
  rw [if_pos (by decide), h4]
  show (if n = n then
      match (n ++ '>' :: Z).drop n.length with
      | g2 :: rest6 =>
        if g2 = '>' then
          match parseContentF f rest6 with
          | none => none
          | some (ts, restF) => some (Tok.tag n a inner :: ts, restF)
        else none
      | _ => none
    else none) = some (Tok.tag n a inner :: ts2, rst)
  rw [if_pos rfl, List.drop_left]
  show (if ('>' : Char) = '>' then
      match parseContentF f Z with
      | none => none
      | some (ts, restF) => some (Tok.tag n a inner :: ts, restF)
    else none) = some (Tok.tag n a inner :: ts2, rst)
  rw [if_pos rfl, h5]

/-- Re-parsing a rendered well-formed, maximal-text-run forest, followed
by either nothing or a close tag, recovers exactly that forest. -/
theorem parseContentF_render : ∀ (M : Nat) (ts : List Tok), (token_str ts).length ≤ M →
    wfListB ts = true → sepList ts = true →
    ∀ rest : List Char, (rest = [] ∨ ∃ r2, rest = '<' :: '/' :: r2) →
    ∀ fuel : Nat, (token_str ts ++ rest).length < fuel →
    parseContentF fuel (token_str ts ++ rest) = some (ts, rest) := by
  intro M
  induction M using Nat.strong_induction_on with
  | _ M ih =>
    intro ts hM hwf hsep rest hrest fuel hfuel
    obtain ⟨f, rfl⟩ : ∃ f, fuel = f + 1 := ⟨fuel - 1, by omega⟩
    cases ts with
    | nil =>
      simp only [token_str, List.nil_append]
      rcases hrest with rfl | ⟨r2, rfl⟩
      · exact parseContentF_nil f
      · rw [parseContentF_cons, if_pos rfl,
          if_pos (show ('/' :: r2).head? = some '/' from rfl)]
    | cons t ts2 =>
      simp only [wfListB, Bool.and_eq_true] at hwf
      obtain ⟨hwft, hwf2⟩ := hwf
      simp only [sepList, Bool.and_eq_true] at hsep
      obtain ⟨⟨hst, hnad⟩, hsep2⟩ := hsep
      cases t with
      | text s =>
        simp only [wfTokB, Bool.and_eq_true] at hwft
        obtain ⟨hse, hall⟩ := hwft
        rw [List.all_eq_true] at hall
        cases s with
        | nil => simp at hse
        | cons s0 sr =>
          have hs0 := hall s0 (by simp)
          have hX : token_str ts2 ++ rest = []
              ∨ ∃ d X2, token_str ts2 ++ rest = d :: X2 ∧ isTextChar d = false := by
            cases ts2 with
            | nil =>
              simp only [token_str, List.nil_append]
              rcases hrest with rfl | ⟨r2, rfl⟩
              · exact Or.inl rfl
              · exact Or.inr ⟨'<', '/' :: r2, rfl, by decide⟩
            | cons t2 ts3 =>
              cases t2 with
              | text s2 =>
                exfalso
                simp only [isTextTok, headIsText, Bool.and_true, Bool.not_eq_true'] at hnad
                exact absurd hnad (by decide)
              | tag n2 a2 c2 =>
                refine Or.inr ⟨'<', n2 ++ ((a2.map (fun y => ' ' :: y)).flatten
                  ++ ('>' :: (token_str c2 ++ ('<' :: ('/' :: (n2
                    ++ ('>' :: (token_str ts3 ++ rest)))))))), ?_, by decide⟩
                simp [token_str, token_str1, token_open_str, token_close_str,
                  List.append_assoc]
          have htw : (s0 :: (sr ++ (token_str ts2 ++ rest))).takeWhile isTextChar
              = s0 :: sr := by
            show ((s0 :: sr) ++ (token_str ts2 ++ rest)).takeWhile isTextChar = s0 :: sr
            rcases hX with hX0 | ⟨d, X2, hX2, hd⟩
            · rw [hX0, List.append_nil]
              exact takeWhile_all _ _ (fun c hc => hall c hc)
            · rw [hX2]
              exact takeWhile_prefix_break _ _ d X2 (fun c hc => hall c hc) hd
          have hdw : (s0 :: (sr ++ (token_str ts2 ++ rest))).dropWhile isTextChar
              = token_str ts2 ++ rest := by
            show ((s0 :: sr) ++ (token_str ts2 ++ rest)).dropWhile isTextChar
              = token_str ts2 ++ rest
            rcases hX with hX0 | ⟨d, X2, hX2, hd⟩
            · rw [hX0, List.append_nil]
              exact dropWhile_all _ _ (fun c hc => hall c hc)
            · rw [hX2]
              exact dropWhile_prefix_break _ _ d X2 (fun c hc => hall c hc) hd
          have hrec : parseContentF f (token_str ts2 ++ rest) = some (ts2, rest) := by
            refine ih (token_str ts2).length ?_ ts2 (le_refl _) hwf2 hsep2 rest hrest f ?_
            · simp only [token_str, token_str1, List.length_append, List.length_cons] at hM
              omega
            · simp only [token_str, token_str1, List.length_append, List.length_cons] at hfuel
              simp only [List.length_append]
              omega
          have hs0n : ¬(s0 = '<') ∧ ¬(s0 = '>') := by simpa [isTextChar] using hs0
          simp only [token_str, token_str1, List.append_assoc, List.cons_append]
          rw [parseContentF_cons, if_neg hs0n.1, if_neg hs0n.2, hdw, hrec, htw]
      | tag n a c =>
        simp only [wfTokB, Bool.and_eq_true, decide_eq_true_eq] at hwft
        obtain ⟨⟨hn, ha⟩, hwfc⟩ := hwft
        rw [List.all_eq_true] at ha
        simp only [sepTok] at hst
        obtain ⟨n0, nr, rfl⟩ := List.exists_cons_of_ne_nil (names_head n hn).2
        have hn0 : ¬(n0 = '/') := by
          have := (names_head _ hn).1
          simpa using this
        have hone : ∃ c2 r2,
            (a.map (fun y => ' ' :: y)).flatten
                ++ ('>' :: (token_str c ++ ('<' :: ('/' :: (n0 :: (nr
                  ++ ('>' :: (token_str ts2 ++ rest))))))))
              = c2 :: r2 ∧ (c2 = ' ' ∨ c2 = '>') := by
          cases a with
          | nil =>
            refine ⟨'>', token_str c ++ ('<' :: ('/' :: (n0 :: (nr
              ++ ('>' :: (token_str ts2 ++ rest)))))), ?_, Or.inr rfl⟩
            simp
          | cons x xs =>
            refine ⟨' ', x ++ ((xs.map (fun y => ' ' :: y)).flatten
              ++ ('>' :: (token_str c ++ ('<' :: ('/' :: (n0 :: (nr
                ++ ('>' :: (token_str ts2 ++ rest))))))))), ?_, Or.inl rfl⟩
            simp [List.append_assoc]
        obtain ⟨c2, r2, he2, hc2⟩ := hone
        have h1 : matchName ((n0 :: nr)
            ++ ((a.map (fun y => ' ' :: y)).flatten
                ++ ('>' :: (token_str c ++ ('<' :: ('/' :: (n0 :: (nr
                  ++ ('>' :: (token_str ts2 ++ rest)))))))))) = some (n0 :: nr) := by
          rw [he2]
          exact matchName_render _ hn c2 hc2 r2
        have hh : ¬((((n0 :: nr)
            ++ ((a.map (fun y => ' ' :: y)).flatten
                ++ ('>' :: (token_str c ++ ('<' :: ('/' :: (n0 :: (nr
                  ++ ('>' :: (token_str ts2 ++ rest))))))))))).head? = some '/') := by
          show ¬((n0 :: (nr
            ++ ((a.map (fun y => ' ' :: y)).flatten
                ++ ('>' :: (token_str c ++ ('<' :: ('/' :: (n0 :: (nr
                  ++ ('>' :: (token_str ts2 ++ rest))))))))))).head? = some '/')
          simp only [List.head?_cons, Option.some.injEq]
          exact hn0
        have hd1 := List.drop_left (n0 :: nr)
          ((a.map (fun y => ' ' :: y)).flatten
            ++ ('>' :: (token_str c ++ ('<' :: ('/' :: (n0 :: (nr
              ++ ('>' :: (token_str ts2 ++ rest)))))))))
        have h2 : parseAttrsF
            (((a.map (fun y => ' ' :: y)).flatten
              ++ ('>' :: (token_str c ++ ('<' :: ('/' :: (n0 :: (nr
                ++ ('>' :: (token_str ts2 ++ rest))))))))).length + 1)
            ((a.map (fun y => ' ' :: y)).flatten
              ++ ('>' :: (token_str c ++ ('<' :: ('/' :: (n0 :: (nr
                ++ ('>' :: (token_str ts2 ++ rest)))))))))
            = some (a, '>' :: (token_str c ++ ('<' :: ('/' :: (n0 :: (nr
                ++ ('>' :: (token_str ts2 ++ rest)))))))) :=
          parseAttrsF_render a (fun x hx => ha x hx) _ _ (Nat.lt_succ_self _)
            (Or.inr ⟨'>', token_str c ++ ('<' :: ('/' :: (n0 :: (nr
              ++ ('>' :: (token_str ts2 ++ rest)))))), rfl, by decide⟩)
        have h3 : parseContentF f (token_str c ++ ('<' :: ('/' :: (n0 :: (nr
              ++ ('>' :: (token_str ts2 ++ rest)))))))
            = some (c, '<' :: ('/' :: (n0 :: (nr ++ ('>' :: (token_str ts2 ++ rest)))))) := by
          refine ih (token_str c).length ?_ c (le_refl _) hwfc hst
            ('<' :: ('/' :: (n0 :: (nr ++ ('>' :: (token_str ts2 ++ rest))))))
            (Or.inr ⟨n0 :: (nr ++ ('>' :: (token_str ts2 ++ rest))), rfl⟩) f ?_
          · simp only [token_str, token_str1, token_open_str, token_close_str,
              List.length_append, List.length_cons] at hM
            omega
          · simp only [token_str, token_str1, token_open_str, token_close_str,
              List.length_append, List.length_cons] at hfuel
            simp only [List.length_append, List.length_cons]
            omega
        have h4 : matchName ((n0 :: nr) ++ '>' :: (token_str ts2 ++ rest))
            = some (n0 :: nr) :=
          matchName_render _ hn '>' (Or.inr rfl) _
        have h5 : parseContentF f (token_str ts2 ++ rest) = some (ts2, rest) := by
          refine ih (token_str ts2).length ?_ ts2 (le_refl _) hwf2 hsep2 rest hrest f ?_
          · simp only [token_str, token_str1, token_open_str, token_close_str,
              List.length_append, List.length_cons] at hM
            omega
          · simp only [token_str, token_str1, token_open_str, token_close_str,
              List.length_append, List.length_cons] at hfuel
            simp only [List.length_append]
            omega
        have hshape : token_str (Tok.tag (n0 :: nr) a c :: ts2) ++ rest
            = '<' :: ((n0 :: nr)
              ++ ((a.map (fun y => ' ' :: y)).flatten
                  ++ ('>' :: (token_str c ++ ('<' :: ('/' :: (n0 :: (nr
                    ++ ('>' :: (token_str ts2 ++ rest)))))))))) := by
          simp [token_str, token_str1, token_open_str, token_close_str, List.append_assoc]
        rw [hshape]
        exact parseContentF_tag_step f (n0 :: nr) a c ts2 _ _ _ _ rest hh h1 hd1 h2 h3 h4 h5

/-- C4: counterexample to the literal statement.  The grammar's `WS`
terminal accepts any whitespace run between tag name and attributes (and
between attributes), but the renderer always emits a single space, so a
source with two spaces is accepted yet not reproduced byte-for-byte. -/
theorem C4_roundtrip_counterexample :
    parse "<span  class=\"tg-spoiler\" id=\"123\">spoiler</span>".data
      = some [Tok.tag "span".data ["class=\"tg-spoiler\"".data, "id=\"123\"".data]
          [Tok.text "spoiler".data]]
    ∧ token_str [Tok.tag "span".data ["class=\"tg-spoiler\"".data, "id=\"123\"".data]
          [Tok.text "spoiler".data]]
      ≠ "<span  class=\"tg-spoiler\" id=\"123\">spoiler</span>".data := by
  constructor
  · rfl
  · decide

/-- C4 (amended): the render/parse round trip holds up to re-parsing —
for every string `s` accepted by the markup grammar, the rendered parse
result is itself accepted and re-parses to the same Document:
`parse (token_str d) = some d` whenever `parse s = some d`.  (Rendering
normalizes inter-attribute whitespace to a single space, so
`token_str (parse s) = s` itself fails; see the counterexample.) -/
theorem C4_render_parse_roundtrip (s : List Char) (d : List Tok)
    (h : parse s = some d) : parse (token_str d) = some d := by
  obtain ⟨hwf, hsep⟩ := parse_wf h
  have hpc : parseContentF ((token_str d).length + 1) (token_str d ++ [])
      = some (d, []) :=
    parseContentF_render (token_str d).length d (le_refl _) hwf hsep [] (Or.inl rfl)
      ((token_str d).length + 1) (by simp)
  rw [List.append_nil] at hpc
  unfold parse
  rw [hpc]

theorem C4_render_parse_roundtrip_witness :
    parse "<b>x</b>".data = some [Tok.tag "b".data [] [Tok.text "x".data]]
    ∧ parse (token_str [Tok.tag "b".data [] [Tok.text "x".data]])
        = some [Tok.tag "b".data [] [Tok.text "x".data]] :=
  ⟨rfl, C4_render_parse_roundtrip "<b>x</b>".data _ rfl⟩

/-! ## C1: the shape of every emitted chunk -/

theorem chainList_nil_ext (toks : List Tok) : chainList toks [] = true := by
  cases toks <;> rfl

theorem chainList_cons_tail (t : Tok) (ts : List Tok) (ext : Inside)
    (h : chainList ts ext = true) : chainList (t :: ts) ext = true := by
  cases ext with
  | nil => rfl
  | cons p e =>
    show (chainTok t (p :: e) || chainList ts (p :: e)) = true
    rw [h, Bool.or_true]

theorem chainList_drop (k : Nat) : ∀ (toks : List Tok) (ext : Inside),
    chainList (toks.drop k) ext = true → chainList toks ext = true := by
  induction k with
  | zero => intro toks ext h; simpa using h
  | succ k ih =>
    intro toks ext h
    cases toks with
    | nil => exact h
    | cons t ts => exact chainList_cons_tail t ts ext (ih ts ext h)

theorem chainList_text_front : ∀ (l1 l2 : List Tok) (ext : Inside),
    (∀ t ∈ l1, isTextTok t = true) → chainList (l1 ++ l2) ext = true →
    chainList l2 ext = true := by
  intro l1
  induction l1 with
  | nil => intro l2 ext _ h; exact h
  | cons t l1 ih =>
    intro l2 ext htx h
    cases ext with
    | nil => exact chainList_nil_ext l2
    | cons p e =>
      have h2 : (chainTok t (p :: e) || chainList (l1 ++ l2) (p :: e)) = true := h
      cases t with
      | text s =>
        simp only [chainTok, Bool.false_or] at h2
        exact ih l2 (p :: e) (fun x hx => htx x (by simp [hx])) h2
      | tag n a c => exact absurd (htx (Tok.tag n a c) (by simp)) (by simp [isTextTok])

/-- The remainder of a cut only loses descent chains: its text prefix
carries none and the rest is a suffix of the original forest. -/
theorem chainList_rightOfCut {toks : List Tok} {s : List Char} {ti ci : Nat} {ext : Inside}
    (h : chainList (rightOfCut toks s ti ci) ext = true) : chainList toks ext = true := by
  unfold rightOfCut at h
  refine chainList_drop (ti + 1) toks ext (chainList_text_front _ _ ext ?_ h)
  intro t ht
  by_cases hd : (s.drop (ci + 1)).isEmpty = true
  · rw [if_pos hd] at ht
    simp at ht
  · rw [if_neg hd] at ht
    simp at ht
    rw [ht]
    rfl

theorem chainList_descend (n : List Char) (a : List (List Char)) (c : List Tok)
    (rest : List Tok) (ext2 : Inside) (h : chainList c ext2 = true) :
    chainList (Tok.tag n a c :: rest) ((n, a) :: ext2) = true := by
  show (((decide (n = n) && decide (a = a)) && chainList c ext2)
    || chainList rest ((n, a) :: ext2)) = true
  simp [h]

/-- Every chunk the markup segmenter emits, at any recursion depth, is
the open tags of the ambient ancestor stack extended by an actual
descent chain of the current forest, a rendered well-formed sibling
sequence, and the close tags of that same extended stack in the same
outermost-first order. -/
theorem chunkHtmlF_shape : ∀ (fuel maxLen : Nat) (toks : List Tok) (ins : Inside)
    (cs : List (List Char)), wfListB toks = true →
    chunkHtmlF fuel maxLen toks ins = some (.ok cs) →
    ∀ ch ∈ cs, ∃ ext seq,
      ch = openAll (ins ++ ext) ++ (token_str seq ++ closeAll (ins ++ ext))
      ∧ chainList toks ext = true ∧ wfListB seq = true := by
  intro fuel
  induction fuel with
  | zero => intro m toks ins cs _ h; simp [chunkHtmlF] at h
  | succ f ih =>
    intro m toks ins cs hwf h
    cases toks with
    | nil =>
      rw [chunkHtmlF_nil] at h
      simp at h
      rw [h]
      intro ch hch
      simp at hch
    | cons t0 rest =>
      rw [chunkHtmlF_cons] at h
      split at h
      · simp at h
        rw [← h]
        intro ch hch
        simp at hch
        refine ⟨[], t0 :: rest, ?_, chainList_nil_ext _, hwf⟩
        rw [List.append_nil]
        exact hch
      · cases hbc : bestCutImpl m ((openAll ins).length + (closeAll ins).length) (t0 :: rest) with
        | some v =>
          obtain ⟨ti, ci⟩ := v
          rw [hbc] at h
          have hbs := hbc
          rw [bestCutImpl_eq_spec] at hbs
          obtain ⟨s, hg, hci, hval⟩ := specBestCut_valid _ _ _ _ _ hbs
          simp only [chunkCutStep, hg] at h
          cases h2 : chunkHtmlF f m (rightOfCut (t0 :: rest) s ti ci) ins with
          | none => rw [h2] at h; simp [consRes] at h
          | some r =>
            rw [h2] at h
            cases r with
            | error e => simp [consRes] at h
            | ok cs2 =>
              simp [consRes] at h
              rw [← h]
              intro ch hch
              rcases List.mem_cons.mp hch with rfl | hch2
              · refine ⟨[], leftOfCut (t0 :: rest) s ti ci, ?_,
                  chainList_nil_ext _, wfListB_leftOfCut hg hci hwf⟩
                rw [List.append_nil]
              · obtain ⟨ext, seq, heq, hchain, hws⟩ :=
                  ih m _ ins cs2 (@wfListB_rightOfCut (t0 :: rest) s ti ci hg hwf) h2 ch hch2
                exact ⟨ext, seq, heq, chainList_rightOfCut hchain, hws⟩
        | none =>
          rw [hbc] at h
          cases t0 with
          | text s => simp [chunkCutStep] at h
          | tag n a cnt =>
            simp only [chunkCutStep] at h
            simp only [wfListB, wfTokB, Bool.and_eq_true, decide_eq_true_eq] at hwf
            obtain ⟨⟨⟨hn, ha⟩, hcnt⟩, hrest⟩ := hwf
            cases h2 : chunkHtmlF f m cnt (ins ++ [(n, a)]) with
            | none => rw [h2] at h; simp [seqRes] at h
            | some r1 =>
              rw [h2] at h
              cases r1 with
              | error e => simp [seqRes] at h
              | ok l =>
                cases h3 : chunkHtmlF f m rest ins with
                | none => rw [h3] at h; simp [seqRes] at h
                | some r2 =>
                  rw [h3] at h
                  cases r2 with
                  | error e => simp [seqRes] at h
                  | ok rr =>
                    simp [seqRes] at h
                    rw [← h]
                    intro ch hch
                    rcases List.mem_append.mp hch with hl | hr
                    · obtain ⟨ext, seq, heq, hchain, hws⟩ :=
                        ih m cnt (ins ++ [(n, a)]) l hcnt h2 ch hl
                      refine ⟨(n, a) :: ext, seq, ?_,
                        chainList_descend n a cnt rest ext hchain, hws⟩
                      rw [List.append_assoc] at heq
                      exact heq
                    · obtain ⟨ext, seq, heq, hchain, hws⟩ :=
                        ih m rest ins rr hrest h3 ch hr
                      exact ⟨ext, seq, heq, chainList_cons_tail _ _ _ hchain, hws⟩

/-- C1: counterexample to grammar acceptance.  `chunk_html` appends the
close tags of the ancestor stack in the same outermost-first order as
the re-opened tags (the `postfix` join is not reversed), so a chunk cut
inside nested tags ends `...</pre></code>` and is rejected by the
markup grammar. -/
theorem C1_selfcontained_counterexample :
    chunk 80 "<pre><code class=\"language-python\">import sys\nprint(sys.executable)\nprint(sys.argv)</code></pre>".data "HTML".data
      = .ok ["<pre><code class=\"language-python\">import sys\n</pre></code>".data,
             "<pre><code class=\"language-python\">print(sys.executable)\n</pre></code>".data,
             "<pre><code class=\"language-python\">print(sys.argv)</pre></code>".data]
    ∧ parse "<pre><code class=\"language-python\">import sys\n</pre></code>".data = none :=
  ⟨rfl, rfl⟩

/-- C1 (amended).  Whenever the markup-aware segmenter succeeds on a
well-formed forest, every emitted chunk is exactly: the open tags of the
ambient ancestor stack `ins` extended by `ext` — an actual descent chain
of the forest, the very path of `(name, attrs)` pairs `chunk_html`
pushes onto `inside_tags` — then a rendered well-formed sibling
sequence, then the close tags of that same extended stack in the same
outermost-first order (the `postfix` join is not reversed).  With two or
more spanning ancestors such a chunk closes tags in the wrong order and
is not itself accepted by the markup grammar (see the counterexample),
refuting the claimed reverse-order closes and self-containedness. -/
theorem C1_chunk_shape (maxLen : Nat) (toks : List Tok) (ins : Inside)
    (cs : List (List Char)) (hwf : wfListB toks = true)
    (h : chunk_html maxLen toks ins = .ok cs) :
    ∀ ch ∈ cs, ∃ ext seq,
      ch = openAll (ins ++ ext) ++ (token_str seq ++ closeAll (ins ++ ext))
      ∧ chainList toks ext = true ∧ wfListB seq = true := by
  have he := chunkHtmlF_eq_some_chunk_html (token_len toks + 1) maxLen toks ins (by omega)
  rw [h] at he
  exact chunkHtmlF_shape _ _ _ _ _ hwf he

theorem C1_chunk_shape_witness :
    wfListB [Tok.text "hi".data, Tok.tag "b".data [] [Tok.text "there".data],
        Tok.text "world".data] = true
    ∧ chunk_html 10 [Tok.text "hi".data, Tok.tag "b".data [] [Tok.text "there".data],
        Tok.text "world".data] []
      = .ok ["hi".data, "<b>the</b>".data, "<b>re</b>".data, "world".data]
    ∧ ∀ ch ∈ ["hi".data, "<b>the</b>".data, "<b>re</b>".data, "world".data],
        ∃ ext seq,
          ch = openAll ([] ++ ext) ++ (token_str seq ++ closeAll ([] ++ ext))
          ∧ chainList [Tok.text "hi".data, Tok.tag "b".data [] [Tok.text "there".data],
              Tok.text "world".data] ext = true
          ∧ wfListB seq = true :=
  ⟨rfl, rfl, C1_chunk_shape 10
    [Tok.text "hi".data, Tok.tag "b".data [] [Tok.text "there".data], Tok.text "world".data]
    [] ["hi".data, "<b>the</b>".data, "<b>re</b>".data, "world".data] rfl rfl⟩

end Microgram
